import Mathlib

/-!
# Decision-tree induction (`main.cpp`): embedding and verified properties

The development embeds the tree-induction core of `main.cpp`:

* `TreeNode` (the struct with `attribute`, `label`, `children`),
* `DecisionTree::predict`,
* `DecisionTree::buildTree`,
* `DecisionTree::calculateIG_OnSubset` and `DecisionTree::calculateEntropy`,
* `DataSheet::calculateEntropy()` and `DataSheet::getHeaders`.

Modelling conventions.

* `std::vector<T>` is `List T`; an out-of-range `v[i]` (undefined behaviour in
  C++) makes the embedded function return `none`.
* `std::unordered_map<string, T>` is an association list with unique keys
  (`UMap T`), kept in insertion order.  The order in which a range-`for`
  visits the entries of an `unordered_map` is unspecified; it is a parameter
  of the embedding (`HashOrder`): every loop over a map visits
  `o.iter m`, an arbitrary permutation of the entries.
* `double` is read as exact real arithmetic (`ℝ`), `log2` as `Real.logb 2`.
* `int` counters and sizes are natural numbers (no table is large enough to
  overflow an `int`); `labelIdx = colCount - 1` is an integer since it is
  `-1` for an empty header.
* Console output (`cout`, `printIndent`) and the `depth` argument that only
  feeds it are dropped; the `position` field used for drawing is dropped.
* The recursion of `buildTree` is driven by a fuel argument; `buildTree`
  supplies `headers.size() + 1`, and the termination theorems show that this
  is always enough.
-/

namespace DecisionTreeImpl

/-! ## Vectors and hash maps -/

/-- Indexing `v[i]` with a signed index: `none` when `i` is out of range. -/
def getAt {α : Type} (v : List α) (i : Int) : Option α :=
  if i < 0 then none else v[i.toNat]?

/-- A `std::unordered_map<string, α>`: association list, unique keys. -/
abbrev UMap (α : Type) := List (String × α)

namespace UMap

/-- The lookup `m.find(k)`: the mapped value, or `none` for `m.end()`. -/
def find? {α : Type} : UMap α → String → Option α
  | [], _ => none
  | (k', v) :: rest, k => if k' = k then some v else find? rest k

/-- The access `m[k]` followed by an in-place update `f` of the mapped value:
    an absent key is first inserted with the value-initialised `d`. -/
def update {α : Type} : UMap α → String → α → (α → α) → UMap α
  | [], k, d, f => [(k, f d)]
  | (k', v) :: rest, k, d, f =>
    if k' = k then (k', f v) :: rest else (k', v) :: update rest k d f

/-- The keys of a map, in storage order. -/
def keys {α : Type} (m : UMap α) : List String := m.map Prod.fst

end UMap

/-- Iteration order of `std::unordered_map`: a range-`for` over a map visits
    its entries in an unspecified order, here any permutation of them. -/
structure HashOrder where
  /-- The order in which a loop visits the entries. -/
  iter : {α : Type} → UMap α → UMap α
  /-- Every entry is visited exactly once. -/
  perm : ∀ {α : Type} (m : UMap α), (iter m).Perm m

/-- The iteration order that visits entries in insertion order. -/
def HashOrder.insertion : HashOrder where
  iter := fun m => m
  perm := fun m => List.Perm.refl m

/-- The iteration order that visits entries in reverse insertion order. -/
def HashOrder.reversed : HashOrder where
  iter := fun m => m.reverse
  perm := fun m => List.reverse_perm m

/-! ## The tree -/

/-- The struct `TreeNode`: `attribute` (if internal node), `label`
    (non-empty only if leaf) and the `children` map. The field `attribute` is
    called `attr` here, `attribute` being a reserved word. -/
inductive TreeNode where
  | mk (attr : String) (label : String) (children : List (String × TreeNode))

namespace TreeNode

/-- Field `attribute`. -/
def attr : TreeNode → String
  | mk a _ _ => a

/-- Field `label`. -/
def label : TreeNode → String
  | mk _ l _ => l

/-- Field `children`. -/
def children : TreeNode → UMap TreeNode
  | mk _ _ c => c

/-- A leaf has no children. -/
def isLeaf (n : TreeNode) : Bool := n.children.isEmpty

/-- A decision node has at least one child. -/
def isDecision (n : TreeNode) : Bool := !n.children.isEmpty

end TreeNode

/-! ## `DecisionTree::predict` -/

mutual
/-- The loop of `predict` started at a (non-null) node: while the node's
    label is empty, look the node's attribute up in `input`, then the value
    in the node's children, and descend. -/
def predictFrom (input : UMap String) : TreeNode → String
  | TreeNode.mk attr label children =>
    if label ≠ "" then label
    else
      match input.find? attr with
      | none => "Unknown"
      | some v => predictChild input v children
/-- The step `children.find(v)` of `predict` followed by the rest of the
    loop from the child found. -/
def predictChild (input : UMap String) (v : String) : UMap TreeNode → String
  | [] => "Unknown"
  | (k, c) :: rest => if k = v then predictFrom input c else predictChild input v rest
end

/-- Method `DecisionTree::predict`: `root` is `none` for a null root. -/
def predict (root : Option TreeNode) (input : UMap String) : String :=
  match root with
  | none => "Unknown"
  | some node => predictFrom input node

/-- Nodes the loop of `predict` visits: `Visits input root n` when the
    traversal for `input` started at `root` arrives at node `n`. -/
inductive Visits (input : UMap String) : TreeNode → TreeNode → Prop where
  | here (n : TreeNode) : Visits input n n
  | step (root n child : TreeNode) (v : String) :
      Visits input root n → n.label = "" → input.find? n.attr = some v →
      n.children.find? v = some child → Visits input root child

/-! ## Majority label and the homogeneity test of `buildTree` -/

/-- The loop `for (i = 2; i < rowCount; ++i) if (data[i][labelIdx] != firstLab)
    { allSame = false; break; }` over the rows from index 2 on. -/
def allSameLabels (labelIdx : Int) (firstLab : String) : List (List String) → Option Bool
  | [] => some true
  | row :: rest =>
    match getAt row labelIdx with
    | none => none
    | some lab => if lab ≠ firstLab then some false else allSameLabels labelIdx firstLab rest

/-- The loop `for (i = 1; i < rowCount; ++i) freq[data[i][labelIdx]]++`. -/
def labelFreq (labelIdx : Int) : List (List String) → UMap Nat → Option (UMap Nat)
  | [], freq => some freq
  | row :: rest, freq =>
    match getAt row labelIdx with
    | none => none
    | some lab => labelFreq labelIdx rest (freq.update lab 0 (· + 1))

/-- The loop `for (auto& kv : freq) if (kv.second > bestC) maj = kv.first,
    bestC = kv.second;` from `maj = ""`, `bestC = 0`. -/
def pickMajority (o : HashOrder) (freq : UMap Nat) : String :=
  ((o.iter freq).foldl
    (fun (st : String × Nat) kv => if kv.2 > st.2 then (kv.1, kv.2) else st) ("", 0)).1

/-- The majority block of `buildTree` (it occurs twice, verbatim): count the
    labels of the data rows and pick a most frequent one. -/
def majorityLabel (o : HashOrder) (data : List (List String)) (labelIdx : Int) :
    Option String :=
  (labelFreq labelIdx (data.drop 1) []).map (pickMajority o)

/-! ## Entropy and information gain -/

/-- The loop `for (auto& lab : labels) freq[lab]++`. -/
def countLabels (labels : List String) : UMap Nat :=
  labels.foldl (fun freq lab => freq.update lab 0 (· + 1)) []

/-- Method `DecisionTree::calculateEntropy`: starting from `0.0`, every entry of
    `freq` subtracts `p * log2(p)` with `p = count / n`. -/
noncomputable def calculateEntropy (o : HashOrder) (labels : List String) : ℝ :=
  (o.iter (countLabels labels)).foldl
    (fun entropy kv =>
      entropy - ((kv.2 : ℝ) / (labels.length : ℝ)) *
        Real.logb 2 ((kv.2 : ℝ) / (labels.length : ℝ))) 0

/-- The loop `for (i = 1; i < rowCount; ++i) labels.push_back(subset[i][labelIdx])`. -/
def gatherLabels (labelIdx : Int) : List (List String) → Option (List String)
  | [] => some []
  | row :: rest =>
    match getAt row labelIdx with
    | none => none
    | some lab => (gatherLabels labelIdx rest).map (fun labs => lab :: labs)

/-- The loop `parts[subset[i][attrIdx]].push_back(subset[i][labelIdx])`. -/
def gatherParts (attrIdx : Nat) (labelIdx : Int) :
    List (List String) → UMap (List String) → Option (UMap (List String))
  | [], parts => some parts
  | row :: rest, parts =>
    match row[attrIdx]?, getAt row labelIdx with
    | some val, some lab =>
      gatherParts attrIdx labelIdx rest (parts.update val [] (fun labs => labs ++ [lab]))
    | _, _ => none

/-- Method `DecisionTree::calculateIG_OnSubset`: base entropy of the labels minus
    the remainder, the sum over the parts of `weight * partEnt`. -/
noncomputable def calculateIG_OnSubset (o : HashOrder) (subset : List (List String))
    (attrIdx : Nat) : Option ℝ :=
  match subset[0]? with
  | none => none
  | some row0 =>
    let labelIdx : Int := (row0.length : Int) - 1
    match gatherLabels labelIdx (subset.drop 1) with
    | none => none
    | some labels =>
      let baseEnt := calculateEntropy o labels
      match gatherParts attrIdx labelIdx (subset.drop 1) [] with
      | none => none
      | some parts =>
        let remainder := (o.iter parts).foldl
          (fun remainder kv =>
            remainder + ((kv.2.length : ℝ) / (labels.length : ℝ)) * calculateEntropy o kv.2) 0
        some (baseEnt - remainder)

/-- Method `DataSheet::calculateEntropy()`: counts the labels of the data rows
    of `dataFile` (column `col - 1`) and adds `-p * log2(p)` for every entry,
    with `p = count / (row - 1)`. -/
noncomputable def DataSheet.calculateEntropy (o : HashOrder) (dataFile : List (List String)) :
    Option ℝ :=
  match dataFile[0]? with
  | none => none
  | some row0 =>
    let row : Int := dataFile.length
    let col : Int := row0.length
    match labelFreq (col - 1) (dataFile.drop 1) [] with
    | none => none
    | some classCount =>
      some ((o.iter classCount).foldl
        (fun ent kv =>
          ent + -((kv.2 : ℝ) / ((row - 1 : Int) : ℝ)) *
            Real.logb 2 ((kv.2 : ℝ) / ((row - 1 : Int) : ℝ))) 0)

/-! ## `DecisionTree::buildTree` -/

/-- The attribute-selection loop: from `bestIdx = -1` (`none`),
    `bestGain = -1.0`, every column `i < colCount - 1` with
    `gain > bestGain` becomes the best one. -/
noncomputable def selectBest (o : HashOrder) (data : List (List String)) :
    List Nat → Option Nat × ℝ → Option (Option Nat × ℝ)
  | [], st => some st
  | i :: rest, st =>
    match calculateIG_OnSubset o data i with
    | none => none
    | some gain =>
      if gain > st.2 then selectBest o data rest (some i, gain)
      else selectBest o data rest st

/-- The partition loop of `buildTree`: every data row, with column `bestIdx`
    erased, is appended to the partition keyed by its value in that column. -/
def partitionRows (bestIdx : Nat) :
    List (List String) → UMap (List (List String)) → Option (UMap (List (List String)))
  | [], partitions => some partitions
  | row :: rest, partitions =>
    match row[bestIdx]? with
    | none => none
    | some val =>
      partitionRows bestIdx rest
        (partitions.update val [] (fun rows => rows ++ [row.eraseIdx bestIdx]))

/-- The loop `for (auto& kv : partitions) node->children[kv.first] =
    buildTree(subset, newHeaders)` with `subset = newHeaders :: kv.second`,
    the recursive call being `build`. -/
def buildChildren (build : List (List String) → List String → Option TreeNode)
    (newHeaders : List String) :
    UMap (List (List String)) → UMap TreeNode → Option (UMap TreeNode)
  | [], children => some children
  | kv :: rest, children =>
    match build (newHeaders :: kv.2) newHeaders with
    | none => none
    | some child =>
      buildChildren build newHeaders rest (children.update kv.1 child (fun _ => child))

/-- What one call of `buildTree` does before it recurses: it either returns
    `new TreeNode("", lab)`, or it has chosen `bestIdx`, created the node
    `new TreeNode(bestAttr, "")` and computed `newHeaders` and `partitions`. -/
inductive BuildStep where
  | leaf (lab : String)
  | split (bestIdx : Nat) (bestAttr : String) (newHeaders : List String)
      (partitions : UMap (List (List String)))

/-- The body of `buildTree` up to the loop that builds the children. -/
noncomputable def buildStep (o : HashOrder) (data : List (List String))
    (headers : List String) : Option BuildStep :=
  let colCount := headers.length
  let labelIdx : Int := (colCount : Int) - 1
  match data[1]? with
  | none => none
  | some row1 =>
    match getAt row1 labelIdx with
    | none => none
    | some firstLab =>
      match allSameLabels labelIdx firstLab (data.drop 2) with
      | none => none
      | some true => some (BuildStep.leaf firstLab)
      | some false =>
        if colCount ≤ 2 then
          (majorityLabel o data labelIdx).map BuildStep.leaf
        else
          match selectBest o data (List.range (colCount - 1)) (none, -1) with
          | none => none
          | some (none, _) => (majorityLabel o data labelIdx).map BuildStep.leaf
          | some (some bestIdx, _) =>
            match headers[bestIdx]? with
            | none => none
            | some bestAttr =>
              match partitionRows bestIdx (data.drop 1) [] with
              | none => none
              | some partitions =>
                some (BuildStep.split bestIdx bestAttr (headers.eraseIdx bestIdx) partitions)

/-- Method `DecisionTree::buildTree` with a bound `fuel` on the recursion depth. -/
noncomputable def buildTreeAux (o : HashOrder) :
    Nat → List (List String) → List String → Option TreeNode
  | 0, _, _ => none
  | fuel + 1, data, headers =>
    match buildStep o data headers with
    | none => none
    | some (BuildStep.leaf lab) => some (TreeNode.mk "" lab [])
    | some (BuildStep.split _ bestAttr newHeaders partitions) =>
      (buildChildren (buildTreeAux o fuel) newHeaders (o.iter partitions) []).map
        (fun children => TreeNode.mk bestAttr "" children)

/-- Method `DecisionTree::buildTree(data, headers)`, run with fuel `headers.size() + 1`. -/
noncomputable def buildTree (o : HashOrder) (data : List (List String))
    (headers : List String) : Option TreeNode :=
  buildTreeAux o (headers.length + 1) data headers

/-- Method `DataSheet::getHeaders`: the first row, or an empty vector. -/
def getHeaders (dataFile : List (List String)) : List String :=
  match dataFile with
  | [] => []
  | row0 :: _ => row0

/-- The constructor `DecisionTree(DataSheet*)`:
    `root = buildTree(dataFile->getData(), dataFile->getHeaders())`. -/
noncomputable def trainTree (o : HashOrder) (dataFile : List (List String)) :
    Option TreeNode :=
  buildTree o dataFile (getHeaders dataFile)

/-! ## Example data -/

/-- The weather dataset of the end-to-end scenario, header row first. -/
def weatherData : List (List String) :=
  [["Weather", "Play"], ["Sunny", "No"], ["Sunny", "No"], ["Rainy", "Yes"], ["Rainy", "Yes"]]

/-- The tree `Decision(Weather) → {Sunny: Leaf(No), Rainy: Leaf(Yes)}`. -/
def weatherTree : TreeNode :=
  TreeNode.mk "Weather" "" [("Sunny", TreeNode.mk "" "No" []), ("Rainy", TreeNode.mk "" "Yes" [])]

/-- The record `{"Weather": "Cloudy"}`. -/
def cloudyRecord : UMap String := [("Weather", "Cloudy")]

/-- A dataset whose only data row has an empty label field. -/
def emptyLabelData : List (List String) := [["A", "L"], ["a", ""]]

/-- The record `{"A": "a"}`. -/
def recordA : UMap String := [("A", "a")]

/-- A dataset with two uninformative attributes and labels `Yes, Yes, No`. -/
def uninformativeData : List (List String) :=
  [["A", "B", "L"], ["a", "b", "Yes"], ["a", "b", "Yes"], ["a", "b", "No"]]

/-- A dataset in which column `A` separates the labels and column `B` does not. -/
def splitData : List (List String) :=
  [["A", "B", "L"], ["x", "p", "Yes"], ["y", "p", "No"], ["x", "q", "Yes"]]

/-- A dataset in which any two rows with different labels differ in both
    attribute columns. -/
def separatedData : List (List String) :=
  [["A", "B", "L"], ["x", "p", "Yes"], ["y", "q", "No"], ["x", "p", "Yes"]]

/-! ## Specification-side definitions -/

/-- The data rows whose value in column `idx` is `k`, each with column `idx`
    erased, in input order (the expected content of the partition keyed by `k`). -/
def rowsWith (idx : Nat) (k : String) (rows : List (List String)) : List (List String) :=
  (rows.filter (fun r => r[idx]? = some k)).map (fun r => r.eraseIdx idx)

mutual
/-- Depth of a tree: the largest number of decision nodes (nodes with
    children) on a path from the node to a leaf. -/
def TreeNode.depth : TreeNode → Nat
  | TreeNode.mk _ _ children =>
    if children.isEmpty then 0 else 1 + childrenDepth children
/-- The largest depth among the children of a node. -/
def childrenDepth : List (String × TreeNode) → Nat
  | [] => 0
  | (_, c) :: rest => max c.depth (childrenDepth rest)
end

/-- A dataset as `buildTree` expects it: `headers` is the first row, it has
    at least one column, there is at least one data row, and every data row
    is as long as `headers`. -/
def WellFormed (data : List (List String)) (headers : List String) : Prop :=
  ∃ rows, data = headers :: rows ∧ headers ≠ [] ∧ rows ≠ [] ∧
    ∀ r ∈ rows, r.length = headers.length

/-- The calls of `buildTree` below a root call on `data0`, `headers0`: the
    root call itself, and for every call that reaches the loop over its
    partitions, the call `buildTree(subset, newHeaders)` made for each
    partition, with `subset = newHeaders :: kv.second`. -/
inductive BuildCall (o : HashOrder) (data0 : List (List String)) (headers0 : List String) :
    List (List String) → List String → Prop where
  | root : BuildCall o data0 headers0 data0 headers0
  | child (data : List (List String)) (headers : List String) (bestIdx : Nat)
      (bestAttr : String) (newHeaders : List String)
      (partitions : UMap (List (List String))) (kv : String × List (List String)) :
      BuildCall o data0 headers0 data headers →
      buildStep o data headers =
        some (BuildStep.split bestIdx bestAttr newHeaders partitions) →
      kv ∈ o.iter partitions →
      BuildCall o data0 headers0 (newHeaders :: kv.2) newHeaders

/-! # Verified properties -/

/-! ## Hash-map lemmas -/

theorem UMap.find?_eq_none_iff {α : Type} (m : UMap α) (k : String) :
    m.find? k = none ↔ k ∉ m.keys := by
  induction m with
  | nil => simp [UMap.find?, UMap.keys]
  | cons kv rest ih =>
    obtain ⟨k', v⟩ := kv
    by_cases h : k' = k
    · simp [UMap.find?, UMap.keys, h]
    · have h' : ¬ k = k' := fun e => h e.symm
      simpa [UMap.find?, UMap.keys, h, h'] using ih

theorem UMap.mem_of_find? {α : Type} (m : UMap α) (k : String) (v : α)
    (h : m.find? k = some v) : (k, v) ∈ m := by
  induction m with
  | nil => simp [UMap.find?] at h
  | cons kv rest ih =>
    obtain ⟨k', v'⟩ := kv
    by_cases hk : k' = k
    · simp [UMap.find?, hk] at h
      simp [hk, h]
    · simp [UMap.find?, hk] at h
      exact List.mem_cons_of_mem _ (ih h)

theorem UMap.find?_of_mem {α : Type} (m : UMap α) (k : String) (v : α)
    (nd : m.keys.Nodup) (h : (k, v) ∈ m) : m.find? k = some v := by
  induction m with
  | nil => simp at h
  | cons kv rest ih =>
    obtain ⟨k', v'⟩ := kv
    simp only [UMap.keys, List.map_cons, List.nodup_cons] at nd
    rcases List.mem_cons.1 h with h | h
    · cases h
      simp [UMap.find?]
    · have hk : k' ≠ k := by
        intro e
        apply nd.1
        rw [e]
        exact List.mem_map_of_mem Prod.fst h
      simpa [UMap.find?, hk] using ih nd.2 h

theorem UMap.find?_perm {α : Type} (m m' : UMap α) (k : String)
    (nd : m.keys.Nodup) (hp : m'.Perm m) : m'.find? k = m.find? k := by
  have nd' : m'.keys.Nodup := ((hp.map Prod.fst).nodup_iff).2 nd
  cases h : m.find? k with
  | none =>
    rw [UMap.find?_eq_none_iff] at h ⊢
    intro hk
    exact h ((hp.map Prod.fst).mem_iff.1 hk)
  | some v =>
    exact UMap.find?_of_mem m' k v nd' (hp.mem_iff.2 (UMap.mem_of_find? m k v h))

theorem UMap.find?_update_self {α : Type} (m : UMap α) (k : String) (d : α) (f : α → α) :
    (m.update k d f).find? k = some (f ((m.find? k).getD d)) := by
  induction m with
  | nil => simp [UMap.update, UMap.find?]
  | cons kv rest ih =>
    obtain ⟨k', v⟩ := kv
    by_cases h : k' = k
    · simp [UMap.update, UMap.find?, h]
    · simpa [UMap.update, UMap.find?, h] using ih

theorem UMap.find?_update_ne {α : Type} (m : UMap α) (k k' : String) (d : α) (f : α → α)
    (hne : k' ≠ k) : (m.update k d f).find? k' = m.find? k' := by
  induction m with
  | nil =>
    have : ¬ k = k' := fun e => hne e.symm
    simp [UMap.update, UMap.find?, this]
  | cons kv rest ih =>
    obtain ⟨k1, v⟩ := kv
    by_cases h : k1 = k
    · subst h
      have : ¬ k1 = k' := fun e => hne e.symm
      simp [UMap.update, UMap.find?, this]
    · by_cases h2 : k1 = k'
      · subst h2
        simp [UMap.update, UMap.find?, h]
      · simpa [UMap.update, UMap.find?, h, h2] using ih

theorem UMap.keys_update {α : Type} (m : UMap α) (k : String) (d : α) (f : α → α) :
    (m.update k d f).keys = if k ∈ m.keys then m.keys else m.keys ++ [k] := by
  induction m with
  | nil => simp [UMap.update, UMap.keys]
  | cons kv rest ih =>
    obtain ⟨k1, v⟩ := kv
    by_cases h : k1 = k
    · simp [UMap.update, UMap.keys, h]
    · have h' : ¬ k = k1 := fun e => h e.symm
      simp only [UMap.keys] at ih
      simp only [UMap.update, UMap.keys, h, if_false, List.map_cons, ih, List.mem_cons, h',
        false_or]
      split <;> simp

theorem UMap.nodup_keys_update {α : Type} (m : UMap α) (k : String) (d : α) (f : α → α)
    (nd : m.keys.Nodup) : (m.update k d f).keys.Nodup := by
  rw [UMap.keys_update]
  split
  · exact nd
  · rename_i h
    exact List.Nodup.append nd (List.nodup_singleton k) (by simpa using h)

theorem UMap.mem_keys_update {α : Type} (m : UMap α) (k k' : String) (d : α) (f : α → α) :
    k' ∈ (m.update k d f).keys ↔ k' = k ∨ k' ∈ m.keys := by
  rw [UMap.keys_update]
  split
  · rename_i h
    constructor
    · exact Or.inr
    · rintro (e | e)
      · exact e ▸ h
      · exact e
  · simp [or_comm]

/-! ## `predict` -/

theorem predictChild_eq (input : UMap String) (v : String) (children : UMap TreeNode) :
    predictChild input v children =
      match children.find? v with
      | none => "Unknown"
      | some child => predictFrom input child := by
  induction children with
  | nil => simp [predictChild, UMap.find?]
  | cons kc rest ih =>
    obtain ⟨k, c⟩ := kc
    by_cases h : k = v
    · simp [predictChild, UMap.find?, h]
    · simpa [predictChild, UMap.find?, h] using ih

theorem predictFrom_eq (input : UMap String) (n : TreeNode) :
    predictFrom input n =
      if n.label ≠ "" then n.label
      else
        match input.find? n.attr with
        | none => "Unknown"
        | some v =>
          match n.children.find? v with
          | none => "Unknown"
          | some child => predictFrom input child := by
  cases n with
  | mk a l c =>
    simp only [predictFrom, TreeNode.label, TreeNode.attr, TreeNode.children]
    split
    · rfl
    · cases input.find? a with
      | none => rfl
      | some v => simp only [predictChild_eq]

theorem predictFrom_of_visits (input : UMap String) (root n : TreeNode)
    (h : Visits input root n) : predictFrom input root = predictFrom input n := by
  induction h with
  | here => rfl
  | step m child v _ hl hf hc ih =>
    rw [ih, predictFrom_eq input m]
    simp [hl, hf, hc]

/-! ## Majority label -/

/-- The update step of the majority loop. -/
theorem pickMajority_fold (l : UMap Nat) (st0 : String × Nat) :
    let step := fun (st : String × Nat) (kv : String × Nat) =>
      if kv.2 > st.2 then (kv.1, kv.2) else st
    (l.foldl step st0 = st0 ∧ ∀ kv ∈ l, kv.2 ≤ st0.2) ∨
    (l.foldl step st0 ∈ l ∧ st0.2 < (l.foldl step st0).2 ∧
      ∀ kv ∈ l, kv.2 ≤ (l.foldl step st0).2) := by
  intro step
  induction l generalizing st0 with
  | nil => left; simp
  | cons kv rest ih =>
    simp only [List.foldl_cons]
    by_cases h : kv.2 > st0.2
    · have hs : step st0 kv = (kv.1, kv.2) := by simp [step, h]
      rw [hs]
      right
      rcases ih (kv.1, kv.2) with ⟨e, hle⟩ | ⟨hm, hlt, hle⟩
      · rw [e]
        refine ⟨by simp, h, ?_⟩
        intro x hx
        rcases List.mem_cons.1 hx with hx | hx
        · simp [hx]
        · exact hle x hx
      · refine ⟨List.mem_cons_of_mem _ hm, lt_trans h hlt, ?_⟩
        intro x hx
        rcases List.mem_cons.1 hx with hx | hx
        · rw [hx]; exact le_of_lt hlt
        · exact hle x hx
    · have hs : step st0 kv = st0 := by simp [step, h]
      rw [hs]
      rcases ih st0 with ⟨e, hle⟩ | ⟨hm, hlt, hle⟩
      · left
        refine ⟨e, ?_⟩
        intro x hx
        rcases List.mem_cons.1 hx with hx | hx
        · rw [hx]; exact not_lt.1 h
        · exact hle x hx
      · right
        refine ⟨List.mem_cons_of_mem _ hm, hlt, ?_⟩
        intro x hx
        rcases List.mem_cons.1 hx with hx | hx
        · rw [hx]; exact le_trans (not_lt.1 h) (le_of_lt hlt)
        · exact hle x hx

/-- The majority loop returns a key of maximal count, whatever the iteration
    order, when the map is non-empty and all counts are positive. -/
theorem pickMajority_spec (o : HashOrder) (freq : UMap Nat) (hne : freq ≠ [])
    (hpos : ∀ kv ∈ freq, 0 < kv.2) :
    ∃ c, (pickMajority o freq, c) ∈ freq ∧ ∀ kv ∈ freq, kv.2 ≤ c := by
  have hp := o.perm freq
  rcases pickMajority_fold (o.iter freq) ("", 0) with ⟨_, hle⟩ | ⟨hm, _, hle⟩
  · exfalso
    cases freq with
    | nil => exact hne rfl
    | cons kv rest =>
      have h1 := hle kv (hp.mem_iff.2 (List.mem_cons_self _ _))
      have h2 := hpos kv (List.mem_cons_self _ _)
      simp at h1
      omega
  · refine ⟨_, hp.mem_iff.1 hm, ?_⟩
    intro kv hkv
    exact hle kv (hp.mem_iff.2 hkv)

/-! ## Indexing -/

theorem getAt_pred_length {α : Type} (v : List α) (n : Nat) (h : v.length = n) :
    getAt v ((n : Int) - 1) = v.getLast? := by
  cases n with
  | zero =>
    have : v = [] := List.length_eq_zero.1 h
    subst this
    simp [getAt]
  | succ m =>
    have h1 : ¬ ((((m + 1 : Nat) : Int) - 1) < 0) := by push_cast; omega
    have h2 : ((((m + 1 : Nat) : Int) - 1)).toNat = m := by push_cast; omega
    simp only [getAt, h1, if_false, h2]
    rw [List.getLast?_eq_getElem?, h]
    simp

theorem getAt_natCast {α : Type} (v : List α) (n : Nat) :
    getAt v (((n + 1 : Nat) : Int) - 1) = v[n]? := by
  have h1 : ¬ ((((n + 1 : Nat) : Int) - 1) < 0) := by push_cast; omega
  have h2 : ((((n + 1 : Nat) : Int) - 1)).toNat = n := by push_cast; omega
  simp only [getAt, h1, if_false, h2]

theorem allSameLabels_of_forall (labelIdx : Int) (firstLab : String)
    (rows : List (List String)) (h : ∀ r ∈ rows, getAt r labelIdx = some firstLab) :
    allSameLabels labelIdx firstLab rows = some true := by
  induction rows with
  | nil => rfl
  | cons r rest ih =>
    have h1 := h r (List.mem_cons_self _ _)
    simp only [allSameLabels, h1]
    simp only [ne_eq, not_true_eq_false, if_false]
    exact ih (fun r' hr' => h r' (List.mem_cons_of_mem _ hr'))

/-! ## The partition loop -/

theorem rowsWith_cons (idx : Nat) (k : String) (r : List String) (rows : List (List String)) :
    rowsWith idx k (r :: rows) =
      (if r[idx]? = some k then [r.eraseIdx idx] else []) ++ rowsWith idx k rows := by
  unfold rowsWith
  by_cases h : r[idx]? = some k
  · simp [List.filter_cons, h]
  · simp [List.filter_cons, h]

theorem partitionRows_isSome (bestIdx : Nat) (rows : List (List String))
    (acc : UMap (List (List String))) (h : ∀ r ∈ rows, bestIdx < r.length) :
    ∃ parts, partitionRows bestIdx rows acc = some parts := by
  induction rows generalizing acc with
  | nil => exact ⟨acc, rfl⟩
  | cons r rest ih =>
    have hr : bestIdx < r.length := h r (List.mem_cons_self _ _)
    have hget : r[bestIdx]? = some r[bestIdx] := List.getElem?_eq_getElem hr
    simp only [partitionRows, hget]
    exact ih _ (fun r' hr' => h r' (List.mem_cons_of_mem _ hr'))

theorem partitionRows_find (bestIdx : Nat) (rows : List (List String))
    (acc parts : UMap (List (List String)))
    (h : partitionRows bestIdx rows acc = some parts) (k : String) :
    (parts.find? k).getD [] = (acc.find? k).getD [] ++ rowsWith bestIdx k rows := by
  induction rows generalizing acc with
  | nil =>
    simp only [partitionRows, Option.some.injEq] at h
    subst h
    simp [rowsWith]
  | cons r rest ih =>
    cases hget : r[bestIdx]? with
    | none => simp [partitionRows, hget] at h
    | some val =>
      simp only [partitionRows, hget] at h
      rw [ih _ h, rowsWith_cons, hget]
      by_cases hk : val = k
      · subst hk
        simp [UMap.find?_update_self]
      · have hk' : k ≠ val := fun e => hk e.symm
        simp [UMap.find?_update_ne _ _ _ _ _ hk', hk]

theorem partitionRows_keys (bestIdx : Nat) (rows : List (List String))
    (acc parts : UMap (List (List String)))
    (h : partitionRows bestIdx rows acc = some parts) (k : String) :
    k ∈ parts.keys ↔ k ∈ acc.keys ∨ ∃ r ∈ rows, r[bestIdx]? = some k := by
  induction rows generalizing acc with
  | nil =>
    simp only [partitionRows, Option.some.injEq] at h
    subst h
    simp
  | cons r rest ih =>
    cases hget : r[bestIdx]? with
    | none => simp [partitionRows, hget] at h
    | some val =>
      simp only [partitionRows, hget] at h
      rw [ih _ h, UMap.mem_keys_update]
      simp only [List.mem_cons, exists_eq_or_imp, hget, Option.some.injEq]
      constructor
      · rintro ((e | e) | e)
        · exact Or.inr (Or.inl e.symm)
        · exact Or.inl e
        · exact Or.inr (Or.inr e)
      · rintro (e | e | e)
        · exact Or.inl (Or.inr e)
        · exact Or.inl (Or.inl e.symm)
        · exact Or.inr e

theorem partitionRows_nodup (bestIdx : Nat) (rows : List (List String))
    (acc parts : UMap (List (List String)))
    (h : partitionRows bestIdx rows acc = some parts) (nd : acc.keys.Nodup) :
    parts.keys.Nodup := by
  induction rows generalizing acc with
  | nil =>
    simp only [partitionRows, Option.some.injEq] at h
    subst h
    exact nd
  | cons r rest ih =>
    cases hget : r[bestIdx]? with
    | none => simp [partitionRows, hget] at h
    | some val =>
      simp only [partitionRows, hget] at h
      exact ih _ h (UMap.nodup_keys_update _ _ _ _ nd)

theorem UMap.sum_sizes_update {α : Type} (μ : α → Nat) (m : UMap α) (k : String) (d : α)
    (f : α → α) (hd : μ d = 0) (hf : ∀ v, μ (f v) = μ v + 1) :
    ((m.update k d f).map (fun kv => μ kv.2)).sum = (m.map (fun kv => μ kv.2)).sum + 1 := by
  induction m with
  | nil => simp [UMap.update, hf, hd]
  | cons kv rest ih =>
    obtain ⟨k1, v⟩ := kv
    by_cases h : k1 = k
    · simp [UMap.update, h, hf]
      omega
    · simp [UMap.update, h, ih]
      omega

theorem partitionRows_sizes (bestIdx : Nat) (rows : List (List String))
    (acc parts : UMap (List (List String)))
    (h : partitionRows bestIdx rows acc = some parts) :
    (parts.map (fun kv => kv.2.length)).sum =
      (acc.map (fun kv => kv.2.length)).sum + rows.length := by
  induction rows generalizing acc with
  | nil =>
    simp only [partitionRows, Option.some.injEq] at h
    subst h
    simp
  | cons r rest ih =>
    cases hget : r[bestIdx]? with
    | none => simp [partitionRows, hget] at h
    | some val =>
      simp only [partitionRows, hget] at h
      rw [ih _ h, UMap.sum_sizes_update (fun rs => rs.length) acc val [] _ rfl (by simp)]
      simp only [List.length_cons]
      omega

/-- The partition keyed by `k` after the partition loop. -/
theorem partitionRows_find_eq (bestIdx : Nat) (rows : List (List String))
    (parts : UMap (List (List String)))
    (h : partitionRows bestIdx rows [] = some parts) (k : String) :
    parts.find? k =
      if rowsWith bestIdx k rows = [] then none else some (rowsWith bestIdx k rows) := by
  have hf := partitionRows_find bestIdx rows [] parts h k
  have hk := partitionRows_keys bestIdx rows [] parts h k
  simp only [UMap.find?, Option.getD_none, List.nil_append] at hf
  have hmem : (∃ r ∈ rows, r[bestIdx]? = some k) ↔ rowsWith bestIdx k rows ≠ [] := by
    unfold rowsWith
    rw [ne_eq, List.map_eq_nil_iff, List.filter_eq_nil_iff]
    simp
  cases hfind : parts.find? k with
  | none =>
    have : k ∉ parts.keys := (UMap.find?_eq_none_iff parts k).1 hfind
    rw [hk] at this
    have h2 : rowsWith bestIdx k rows = [] := by
      by_contra hne
      exact this (Or.inr (hmem.2 hne))
    simp [h2]
  | some rs =>
    rw [hfind] at hf
    simp only [Option.getD_some] at hf
    have h1 : k ∈ parts.keys := by
      by_contra hn
      rw [← UMap.find?_eq_none_iff, hfind] at hn
      exact Option.noConfusion hn
    rw [hk] at h1
    have h2 : rowsWith bestIdx k rows ≠ [] := by
      rcases h1 with h1 | h1
      · simp [UMap.keys] at h1
      · exact hmem.1 h1
    simp [h2, hf]

/-! ## Counting labels -/

/-- The counting loop continued from an arbitrary map. -/
theorem countFold_find (labels : List String) (acc : UMap Nat) (k : String) :
    ((labels.foldl (fun freq lab => freq.update lab 0 (· + 1)) acc).find? k).getD 0 =
      (acc.find? k).getD 0 + labels.count k := by
  induction labels generalizing acc with
  | nil => simp
  | cons lab rest ih =>
    simp only [List.foldl_cons]
    rw [ih]
    by_cases h : lab = k
    · subst h
      simp [UMap.find?_update_self]
      omega
    · have h' : k ≠ lab := fun e => h e.symm
      have h'' : ¬ (lab == k) = true := by simpa using h
      simp [UMap.find?_update_ne _ _ _ _ _ h', List.count_cons, h'']

theorem countFold_keys (labels : List String) (acc : UMap Nat) (k : String) :
    k ∈ (labels.foldl (fun freq lab => freq.update lab 0 (· + 1)) acc).keys ↔
      k ∈ acc.keys ∨ k ∈ labels := by
  induction labels generalizing acc with
  | nil => simp
  | cons lab rest ih =>
    simp only [List.foldl_cons]
    rw [ih, UMap.mem_keys_update]
    simp only [List.mem_cons]
    tauto

theorem countFold_nodup (labels : List String) (acc : UMap Nat) (nd : acc.keys.Nodup) :
    (labels.foldl (fun freq lab => freq.update lab 0 (· + 1)) acc).keys.Nodup := by
  induction labels generalizing acc with
  | nil => exact nd
  | cons lab rest ih =>
    simp only [List.foldl_cons]
    exact ih _ (UMap.nodup_keys_update _ _ _ _ nd)

theorem countLabels_nodup (labels : List String) : (countLabels labels).keys.Nodup :=
  countFold_nodup labels [] List.nodup_nil

theorem countLabels_mem_keys (labels : List String) (k : String) :
    k ∈ (countLabels labels).keys ↔ k ∈ labels := by
  unfold countLabels
  rw [countFold_keys]
  simp [UMap.keys]

/-- Every entry of `freq` holds the number of occurrences of its key. -/
theorem countLabels_entry (labels : List String) (kv : String × Nat)
    (h : kv ∈ countLabels labels) : kv.1 ∈ labels ∧ kv.2 = labels.count kv.1 := by
  have hk : kv.1 ∈ (countLabels labels).keys := List.mem_map_of_mem Prod.fst h
  have hf := UMap.find?_of_mem (countLabels labels) kv.1 kv.2 (countLabels_nodup labels) h
  have hc := countFold_find labels [] kv.1
  refine ⟨(countLabels_mem_keys labels kv.1).1 hk, ?_⟩
  unfold countLabels at hf
  rw [hf] at hc
  simpa [UMap.find?] using hc

theorem countLabels_eq_map (labels : List String) :
    countLabels labels = (countLabels labels).keys.map (fun k => (k, labels.count k)) := by
  unfold UMap.keys
  rw [List.map_map]
  conv_lhs => rw [← List.map_id (countLabels labels)]
  apply List.map_congr_left
  intro kv hkv
  have := (countLabels_entry labels kv hkv).2
  simp only [id, Function.comp]
  rw [← this]

theorem countLabels_keys_toFinset (labels : List String) :
    (countLabels labels).keys.toFinset = labels.toFinset := by
  ext k
  simp [countLabels_mem_keys]

/-- A sum over the entries of `freq` is a sum over the distinct labels. -/
theorem countLabels_sum (labels : List String) (g : String → Nat → ℝ) :
    ((countLabels labels).map (fun kv => g kv.1 kv.2)).sum =
      ∑ k in labels.toFinset, g k (labels.count k) := by
  rw [← countLabels_keys_toFinset, List.sum_toFinset _ (countLabels_nodup labels)]
  conv_lhs => rw [countLabels_eq_map labels]
  rw [List.map_map]
  rfl

theorem sum_count_toFinset (labels : List String) :
    ∑ k in labels.toFinset, (labels.count k : ℝ) = (labels.length : ℝ) := by
  have h := Multiset.toFinset_sum_count_eq (labels : Multiset String)
  simp only [Multiset.coe_count, Multiset.coe_card] at h
  have h2 : ((labels : Multiset String).toFinset) = labels.toFinset := rfl
  rw [h2] at h
  exact_mod_cast h

/-! ## Entropy -/

theorem foldl_sub_eq {β : Type} (g : β → ℝ) (l : List β) (a : ℝ) :
    l.foldl (fun e x => e - g x) a = a - (l.map g).sum := by
  induction l generalizing a with
  | nil => simp
  | cons x rest ih =>
    simp only [List.foldl_cons, List.map_cons, List.sum_cons]
    rw [ih]
    ring

theorem foldl_add_eq {β : Type} (g : β → ℝ) (l : List β) (a : ℝ) :
    l.foldl (fun e x => e + g x) a = a + (l.map g).sum := by
  induction l generalizing a with
  | nil => simp
  | cons x rest ih =>
    simp only [List.foldl_cons, List.map_cons, List.sum_cons]
    rw [ih]
    ring

/-- The entropy loop computes `-Σ p·log2 p` over the distinct labels, whatever
    the iteration order. -/
theorem calculateEntropy_eq (o : HashOrder) (labels : List String) :
    calculateEntropy o labels =
      -∑ k in labels.toFinset,
        ((labels.count k : ℝ) / (labels.length : ℝ)) *
          Real.logb 2 ((labels.count k : ℝ) / (labels.length : ℝ)) := by
  unfold calculateEntropy
  rw [foldl_sub_eq (fun (kv : String × Nat) => ((kv.2 : ℝ) / (labels.length : ℝ)) *
        Real.logb 2 ((kv.2 : ℝ) / (labels.length : ℝ)))]
  rw [((o.perm (countLabels labels)).map _).sum_eq]
  rw [countLabels_sum labels (fun _ c => ((c : ℝ) / (labels.length : ℝ)) *
        Real.logb 2 ((c : ℝ) / (labels.length : ℝ)))]
  ring

theorem calculateEntropy_nonneg (o : HashOrder) (labels : List String) :
    0 ≤ calculateEntropy o labels := by
  rw [calculateEntropy_eq, neg_nonneg]
  apply Finset.sum_nonpos
  intro k hk
  have hk' : k ∈ labels := List.mem_toFinset.1 hk
  have hc : 0 < labels.count k := List.count_pos_iff.2 hk'
  have hn : 0 < labels.length := List.length_pos_of_mem hk'
  have hle : labels.count k ≤ labels.length := List.count_le_length _ _
  have hp : (0 : ℝ) < (labels.count k : ℝ) / (labels.length : ℝ) := by positivity
  have hp1 : (labels.count k : ℝ) / (labels.length : ℝ) ≤ 1 := by
    rw [div_le_one (by exact_mod_cast hn)]
    exact_mod_cast hle
  exact mul_nonpos_of_nonneg_of_nonpos hp.le
    (Real.logb_nonpos (by norm_num) hp.le hp1)

theorem calculateEntropy_le (o : HashOrder) (labels : List String) (hne : labels ≠ []) :
    calculateEntropy o labels ≤ Real.logb 2 (labels.dedup.length : ℝ) := by
  rw [calculateEntropy_eq]
  have hn : 0 < labels.length := List.length_pos.2 hne
  have hnR : (0 : ℝ) < (labels.length : ℝ) := by exact_mod_cast hn
  have hcard : labels.dedup.length = labels.toFinset.card := by
    rw [List.card_toFinset]
  have hd : 0 < labels.toFinset.card := by
    rw [Finset.card_pos]
    obtain ⟨x, hx⟩ := List.exists_mem_of_ne_nil labels hne
    exact ⟨x, List.mem_toFinset.2 hx⟩
  have hdR : (0 : ℝ) < (labels.toFinset.card : ℝ) := by exact_mod_cast hd
  rw [hcard]
  have hlog2 : 0 < Real.log 2 := Real.log_pos (by norm_num)
  set d : ℝ := (labels.toFinset.card : ℝ) with hd_def
  set n : ℝ := (labels.length : ℝ) with hn_def
  -- termwise bound in natural logarithms
  have hterm : ∀ k ∈ labels.toFinset,
      -(((labels.count k : ℝ) / n) * Real.log ((labels.count k : ℝ) / n)) ≤
        ((labels.count k : ℝ) / n) * Real.log d + (1 / d - (labels.count k : ℝ) / n) := by
    intro k hk
    have hk' : k ∈ labels := List.mem_toFinset.1 hk
    have hc : 0 < labels.count k := List.count_pos_iff.2 hk'
    have hp : (0 : ℝ) < (labels.count k : ℝ) / n := by positivity
    set p : ℝ := (labels.count k : ℝ) / n
    have hx : (0 : ℝ) < 1 / (d * p) := by positivity
    have h1 := Real.log_le_sub_one_of_pos hx
    rw [one_div, Real.log_inv, Real.log_mul hdR.ne' hp.ne'] at h1
    have h2 := mul_le_mul_of_nonneg_left h1 hp.le
    have h3 : p * ((d * p)⁻¹ - 1) = 1 / d - p := by
      field_simp
      ring
    rw [h3] at h2
    linarith
  have hsum := Finset.sum_le_sum hterm
  rw [Finset.sum_add_distrib, Finset.sum_sub_distrib, ← Finset.sum_mul, ← Finset.sum_div,
    sum_count_toFinset, Finset.sum_const, nsmul_eq_mul] at hsum
  have h4 : n / n = 1 := div_self hnR.ne'
  have h5 : d * (1 / d) = 1 := by field_simp
  rw [h4, one_mul] at hsum
  rw [show ((labels.toFinset.card : ℝ)) = d from rfl, h5, sub_self, add_zero,
    Finset.sum_neg_distrib] at hsum
  have h6 : ∀ k ∈ labels.toFinset,
      ((labels.count k : ℝ) / n) * Real.logb 2 ((labels.count k : ℝ) / n) =
        (((labels.count k : ℝ) / n) * Real.log ((labels.count k : ℝ) / n)) / Real.log 2 := by
    intro k _
    rw [Real.logb, mul_div_assoc]
  rw [Finset.sum_congr rfl h6, ← Finset.sum_div, Real.logb, ← neg_div]
  exact div_le_div_of_nonneg_right hsum hlog2.le

/-! ## Information gain -/

theorem HashOrder.iter_singleton (o : HashOrder) {α : Type} (x : String × α) :
    o.iter [x] = [x] :=
  List.perm_singleton.1 (o.perm [x])

theorem HashOrder.iter_nil (o : HashOrder) {α : Type} :
    o.iter ([] : UMap α) = [] :=
  List.perm_nil.1 (o.perm [])

/-- The value of `calculateIG_OnSubset` with the remainder written as a sum
    over the parts in storage order. -/
theorem calculateIG_OnSubset_eq (o : HashOrder) (subset : List (List String))
    (attrIdx : Nat) (row0 : List String) (labels : List String) (parts : UMap (List String))
    (h0 : subset[0]? = some row0)
    (hl : gatherLabels ((row0.length : Int) - 1) (subset.drop 1) = some labels)
    (hp : gatherParts attrIdx ((row0.length : Int) - 1) (subset.drop 1) [] = some parts) :
    calculateIG_OnSubset o subset attrIdx =
      some (calculateEntropy o labels -
        (parts.map (fun kv =>
          ((kv.2.length : ℝ) / (labels.length : ℝ)) * calculateEntropy o kv.2)).sum) := by
  simp only [calculateIG_OnSubset, h0, hl, hp]
  rw [foldl_add_eq (fun (kv : String × List String) =>
      ((kv.2.length : ℝ) / (labels.length : ℝ)) * calculateEntropy o kv.2)]
  rw [((o.perm parts).map _).sum_eq, zero_add]

theorem calculateIG_uninformative (o : HashOrder) (i : Nat) (hi : i < 2) :
    calculateIG_OnSubset o uninformativeData i = some 0 := by
  have h : i = 0 ∨ i = 1 := by omega
  rcases h with h | h <;> subst h
  · rw [calculateIG_OnSubset_eq o uninformativeData 0 ["A", "B", "L"] ["Yes", "Yes", "No"]
      [("a", ["Yes", "Yes", "No"])] rfl rfl rfl]
    norm_num
  · rw [calculateIG_OnSubset_eq o uninformativeData 1 ["A", "B", "L"] ["Yes", "Yes", "No"]
      [("b", ["Yes", "Yes", "No"])] rfl rfl rfl]
    norm_num

theorem buildStep_uninformative (o : HashOrder) :
    buildStep o uninformativeData ["A", "B", "L"] =
      some (BuildStep.split 0 "A" ["B", "L"]
        [("a", [["b", "Yes"], ["b", "Yes"], ["b", "No"]])]) := by
  have hsel : selectBest o uninformativeData (List.range (3 - 1)) (none, -1) =
      some (some 0, 0) := by
    simp [List.range, List.range.loop, selectBest, calculateIG_uninformative]
  have h1 : uninformativeData[1]? = some ["a", "b", "Yes"] := rfl
  have h2 : getAt ["a", "b", "Yes"] (((["A", "B", "L"] : List String).length : Int) - 1) =
      some "Yes" := rfl
  have h3 : allSameLabels (((["A", "B", "L"] : List String).length : Int) - 1) "Yes"
      (uninformativeData.drop 2) = some false := rfl
  have h4 : partitionRows 0 (uninformativeData.drop 1) [] =
      some [("a", [["b", "Yes"], ["b", "Yes"], ["b", "No"]])] := rfl
  simp only [buildStep, h1, h2, h3]
  simp only [List.length_cons, List.length_nil, Nat.reduceAdd, Nat.reduceLeDiff, if_false]
  rw [hsel]
  simp only [h4]
  rfl

theorem pickMajority_yes_no (o : HashOrder) : pickMajority o [("Yes", 2), ("No", 1)] = "Yes" := by
  obtain ⟨c, hc, hmax⟩ := pickMajority_spec o [("Yes", 2), ("No", 1)] (by simp) (by simp)
  simp only [List.mem_cons, Prod.mk.injEq, List.mem_singleton, List.not_mem_nil, or_false] at hc
  rcases hc with ⟨e, _⟩ | ⟨_, e⟩
  · exact e
  · have := hmax ("Yes", 2) (by simp)
    simp at this
    omega

theorem buildTreeAux_succ (o : HashOrder) (fuel : Nat) (data : List (List String))
    (headers : List String) :
    buildTreeAux o (fuel + 1) data headers =
      match buildStep o data headers with
      | none => none
      | some (BuildStep.leaf lab) => some (TreeNode.mk "" lab [])
      | some (BuildStep.split _ bestAttr newHeaders partitions) =>
        (buildChildren (buildTreeAux o fuel) newHeaders (o.iter partitions) []).map
          (fun children => TreeNode.mk bestAttr "" children) := rfl

/-- The tree built for `uninformativeData`, for every iteration order. -/
theorem trainTree_uninformative (o : HashOrder) :
    trainTree o uninformativeData =
      some (TreeNode.mk "A" "" [("a", TreeNode.mk "" "Yes" [])]) := by
  have hchild : ∀ fuel, buildTreeAux o (fuel + 1)
      (["B", "L"] :: [["b", "Yes"], ["b", "Yes"], ["b", "No"]]) ["B", "L"] =
      some (TreeNode.mk "" (pickMajority o [("Yes", 2), ("No", 1)]) []) := fun _ => rfl
  show buildTreeAux o 4 uninformativeData ["A", "B", "L"] = _
  rw [buildTreeAux_succ, buildStep_uninformative]
  simp only [HashOrder.iter_singleton, buildChildren]
  rw [hchild 2, pickMajority_yes_no]
  rfl

/-! ## Attribute selection -/

theorem selectBest_spec (o : HashOrder) (data : List (List String)) (idxs : List Nat)
    (b0 : Option Nat) (g0 : ℝ) (b : Option Nat) (g : ℝ)
    (h : selectBest o data idxs (b0, g0) = some (b, g)) :
    (∀ i ∈ idxs, ∃ gi, calculateIG_OnSubset o data i = some gi ∧ gi ≤ g) ∧ g0 ≤ g ∧
    ((b = b0 ∧ g = g0) ∨
      ∃ pre post i, idxs = pre ++ i :: post ∧ b = some i ∧
        calculateIG_OnSubset o data i = some g ∧ g0 < g ∧
        ∀ j ∈ pre, ∃ gj, calculateIG_OnSubset o data j = some gj ∧ gj < g) := by
  induction idxs generalizing b0 g0 with
  | nil =>
    simp only [selectBest, Option.some.injEq, Prod.mk.injEq] at h
    obtain ⟨rfl, rfl⟩ := h
    exact ⟨by simp, le_refl _, Or.inl ⟨rfl, rfl⟩⟩
  | cons i rest ih =>
    cases hg : calculateIG_OnSubset o data i with
    | none => simp [selectBest, hg] at h
    | some gi =>
      simp only [selectBest, hg] at h
      by_cases hgt : gi > g0
      · simp only [hgt, if_true] at h
        obtain ⟨hall, hle, hcase⟩ := ih (some i) gi h
        refine ⟨?_, le_trans hgt.le hle, Or.inr ?_⟩
        · intro j hj
          rcases List.mem_cons.1 hj with e | hj
          · subst e; exact ⟨gi, hg, hle⟩
          · exact hall j hj
        · rcases hcase with ⟨e1, e2⟩ | ⟨pre, post, i', e, hb, hi', hlt, hpre⟩
          · subst e2
            exact ⟨[], rest, i, rfl, e1, hg, hgt, by simp⟩
          · refine ⟨i :: pre, post, i', by simp [e], hb, hi', lt_trans hgt hlt, ?_⟩
            intro j hj
            rcases List.mem_cons.1 hj with e' | hj
            · subst e'; exact ⟨gi, hg, hlt⟩
            · exact hpre j hj
      · simp only [hgt, if_false] at h
        obtain ⟨hall, hle, hcase⟩ := ih b0 g0 h
        refine ⟨?_, hle, ?_⟩
        · intro j hj
          rcases List.mem_cons.1 hj with e | hj
          · subst e; exact ⟨gi, hg, le_trans (not_lt.1 hgt) hle⟩
          · exact hall j hj
        · rcases hcase with hc | ⟨pre, post, i', e, hb, hi', hlt, hpre⟩
          · exact Or.inl hc
          · refine Or.inr ⟨i :: pre, post, i', by simp [e], hb, hi', hlt, ?_⟩
            intro j hj
            rcases List.mem_cons.1 hj with e' | hj
            · subst e'; exact ⟨gi, hg, lt_of_le_of_lt (not_lt.1 hgt) hlt⟩
            · exact hpre j hj

theorem range_split_head (n i : Nat) (pre post : List Nat)
    (h : List.range n = pre ++ i :: post) : i < n ∧ ∀ j, j < i → j ∈ pre := by
  have hi : i ∈ List.range n := by rw [h]; simp
  have hin : i < n := List.mem_range.1 hi
  refine ⟨hin, ?_⟩
  have hlen : pre.length < (List.range n).length := by
    rw [h]; simp
  have hget : (List.range n)[pre.length]? = some i := by
    rw [h, List.getElem?_append_right (le_refl _)]; simp
  rw [List.getElem?_range (by simpa using hlen)] at hget
  have hpl : pre.length = i := by simpa using hget
  have hpre : pre = List.range i := by
    have h1 : (List.range n).take pre.length = pre := by
      rw [h]; simp
    rw [List.take_range, hpl] at h1
    rw [← h1, min_eq_left hin.le]
  intro j hj
  rw [hpre]
  exact List.mem_range.2 hj

/-- The first column of maximal gain wins the selection loop. -/
theorem selectBest_first_max (o : HashOrder) (data : List (List String)) (n : Nat)
    (i : Nat) (g : ℝ) (h : selectBest o data (List.range n) (none, -1) = some (some i, g)) :
    i < n ∧ calculateIG_OnSubset o data i = some g ∧
    (∀ j, j < n → ∃ gj, calculateIG_OnSubset o data j = some gj ∧ gj ≤ g) ∧
    (∀ j, j < i → ∃ gj, calculateIG_OnSubset o data j = some gj ∧ gj < g) := by
  obtain ⟨hall, _, hcase⟩ := selectBest_spec o data (List.range n) none (-1) (some i) g h
  rcases hcase with ⟨e, _⟩ | ⟨pre, post, i', e, hb, hi', _, hpre⟩
  · exact Option.noConfusion e
  · have hii : i = i' := by simpa using hb
    subst hii
    obtain ⟨hin, hmem⟩ := range_split_head n i pre post e
    exact ⟨hin, hi', fun j hj => hall j (List.mem_range.2 hj),
      fun j hj => hpre j (hmem j hj)⟩

/-! ## Inversion of `buildStep` -/

theorem buildStep_split_inv (o : HashOrder) (data : List (List String)) (headers : List String)
    (b : Nat) (a : String) (nh : List String) (parts : UMap (List (List String)))
    (h : buildStep o data headers = some (BuildStep.split b a nh parts)) :
    2 < headers.length ∧ headers[b]? = some a ∧ nh = headers.eraseIdx b ∧
    partitionRows b (data.drop 1) [] = some parts ∧
    ∃ g, selectBest o data (List.range (headers.length - 1)) (none, -1) = some (some b, g) := by
  unfold buildStep at h
  simp only at h
  split at h
  · exact Option.noConfusion h
  · split at h
    · exact Option.noConfusion h
    · split at h
      · exact Option.noConfusion h
      · simp at h
      · split at h
        · cases hm : majorityLabel o data ((headers.length : Int) - 1) <;> simp [hm] at h
        · rename_i hcol
          split at h
          · exact Option.noConfusion h
          · cases hm : majorityLabel o data ((headers.length : Int) - 1) <;> simp [hm] at h
          · rename_i b' g hsel
            split at h
            · exact Option.noConfusion h
            · rename_i a' ha
              split at h
              · exact Option.noConfusion h
              · rename_i parts' hp
                simp only [Option.some.injEq, BuildStep.split.injEq] at h
                obtain ⟨rfl, rfl, rfl, rfl⟩ := h
                exact ⟨by omega, ha, rfl, hp, g, hsel⟩

/-! ## Inversion of `buildTreeAux` -/

theorem buildTreeAux_inv (o : HashOrder) (fuel : Nat) (data : List (List String))
    (headers : List String) (node : TreeNode)
    (h : buildTreeAux o fuel data headers = some node) :
    (∃ lab, buildStep o data headers = some (BuildStep.leaf lab) ∧
      node = TreeNode.mk "" lab []) ∨
    (∃ fuel' b a nh parts children, fuel = fuel' + 1 ∧
      buildStep o data headers = some (BuildStep.split b a nh parts) ∧
      buildChildren (buildTreeAux o fuel') nh (o.iter parts) [] = some children ∧
      node = TreeNode.mk a "" children) := by
  cases fuel with
  | zero => simp [buildTreeAux] at h
  | succ fuel' =>
    rw [buildTreeAux_succ] at h
    cases hs : buildStep o data headers with
    | none => simp [hs] at h
    | some s =>
      cases s with
      | leaf lab =>
        simp only [hs, Option.some.injEq] at h
        exact Or.inl ⟨lab, rfl, h.symm⟩
      | split b a nh parts =>
        simp only [hs] at h
        cases hc : buildChildren (buildTreeAux o fuel') nh (o.iter parts) [] with
        | none => simp [hc] at h
        | some children =>
          simp only [hc, Option.map_some', Option.some.injEq] at h
          exact Or.inr ⟨fuel', b, a, nh, parts, children, rfl, rfl, hc, h.symm⟩

/-! ## The loops succeed on well-formed data -/

theorem getAt_isSome_of_length (r : List String) (n : Nat) (hn : 0 < n) (h : r.length = n) :
    ∃ x, getAt r ((n : Int) - 1) = some x ∧ r.getLast? = some x := by
  rw [getAt_pred_length r n h]
  cases hr : r.getLast? with
  | none =>
    rw [List.getLast?_eq_none_iff] at hr
    subst hr
    simp at h
    omega
  | some x => exact ⟨x, rfl, rfl⟩

theorem allSameLabels_isSome (labelIdx : Int) (firstLab : String) (rows : List (List String))
    (h : ∀ r ∈ rows, ∃ x, getAt r labelIdx = some x) :
    ∃ b, allSameLabels labelIdx firstLab rows = some b := by
  induction rows with
  | nil => exact ⟨true, rfl⟩
  | cons r rest ih =>
    obtain ⟨x, hx⟩ := h r (List.mem_cons_self _ _)
    simp only [allSameLabels, hx]
    split
    · exact ⟨false, rfl⟩
    · exact ih (fun r' hr' => h r' (List.mem_cons_of_mem _ hr'))

theorem allSameLabels_true (labelIdx : Int) (firstLab : String) (rows : List (List String))
    (h : allSameLabels labelIdx firstLab rows = some true) :
    ∀ r ∈ rows, getAt r labelIdx = some firstLab := by
  induction rows with
  | nil => simp
  | cons r rest ih =>
    cases hx : getAt r labelIdx with
    | none => simp [allSameLabels, hx] at h
    | some x =>
      simp only [allSameLabels, hx] at h
      by_cases hne : x ≠ firstLab
      · simp [hne] at h
      · simp only [hne, if_false] at h
        have hxe : x = firstLab := not_not.1 hne
        intro r' hr'
        rcases List.mem_cons.1 hr' with e | e
        · rw [e, hx, hxe]
        · exact ih h r' e

theorem allSameLabels_false (labelIdx : Int) (firstLab : String) (rows : List (List String))
    (h : allSameLabels labelIdx firstLab rows = some false) :
    ∃ r ∈ rows, ∃ x, getAt r labelIdx = some x ∧ x ≠ firstLab := by
  induction rows with
  | nil => simp [allSameLabels] at h
  | cons r rest ih =>
    cases hx : getAt r labelIdx with
    | none => simp [allSameLabels, hx] at h
    | some x =>
      simp only [allSameLabels, hx] at h
      by_cases hne : x ≠ firstLab
      · exact ⟨r, List.mem_cons_self _ _, x, hx, hne⟩
      · simp only [hne, if_false] at h
        obtain ⟨r', hr', y, hy, hyne⟩ := ih h
        exact ⟨r', List.mem_cons_of_mem _ hr', y, hy, hyne⟩

theorem labelFreq_isSome (labelIdx : Int) (rows : List (List String)) (acc : UMap Nat)
    (h : ∀ r ∈ rows, ∃ x, getAt r labelIdx = some x) :
    ∃ freq, labelFreq labelIdx rows acc = some freq := by
  induction rows generalizing acc with
  | nil => exact ⟨acc, rfl⟩
  | cons r rest ih =>
    obtain ⟨x, hx⟩ := h r (List.mem_cons_self _ _)
    simp only [labelFreq, hx]
    exact ih _ (fun r' hr' => h r' (List.mem_cons_of_mem _ hr'))

theorem gatherLabels_isSome (labelIdx : Int) (rows : List (List String))
    (h : ∀ r ∈ rows, ∃ x, getAt r labelIdx = some x) :
    ∃ labels, gatherLabels labelIdx rows = some labels := by
  induction rows with
  | nil => exact ⟨[], rfl⟩
  | cons r rest ih =>
    obtain ⟨x, hx⟩ := h r (List.mem_cons_self _ _)
    obtain ⟨labs, hl⟩ := ih (fun r' hr' => h r' (List.mem_cons_of_mem _ hr'))
    exact ⟨x :: labs, by simp [gatherLabels, hx, hl]⟩

theorem gatherParts_isSome (attrIdx : Nat) (labelIdx : Int) (rows : List (List String))
    (acc : UMap (List String))
    (h : ∀ r ∈ rows, (∃ x, getAt r labelIdx = some x) ∧ attrIdx < r.length) :
    ∃ parts, gatherParts attrIdx labelIdx rows acc = some parts := by
  induction rows generalizing acc with
  | nil => exact ⟨acc, rfl⟩
  | cons r rest ih =>
    obtain ⟨⟨x, hx⟩, hlt⟩ := h r (List.mem_cons_self _ _)
    have hget : r[attrIdx]? = some r[attrIdx] := List.getElem?_eq_getElem hlt
    simp only [gatherParts, hx, hget]
    exact ih _ (fun r' hr' => h r' (List.mem_cons_of_mem _ hr'))

theorem WellFormed.getAt_label {data : List (List String)} {headers : List String}
    (hwf : WellFormed data headers) :
    ∀ r ∈ data.drop 1, ∃ x, getAt r ((headers.length : Int) - 1) = some x := by
  obtain ⟨rows, rfl, hne, _, hlen⟩ := hwf
  intro r hr
  have hr' : r ∈ rows := by simpa using hr
  obtain ⟨x, hx, _⟩ := getAt_isSome_of_length r headers.length
    (List.length_pos.2 hne) (hlen r hr')
  exact ⟨x, hx⟩

theorem calculateIG_isSome (o : HashOrder) (data : List (List String))
    (headers : List String) (hwf : WellFormed data headers) (i : Nat)
    (hi : i < headers.length) : ∃ g, calculateIG_OnSubset o data i = some g := by
  have hlab := hwf.getAt_label
  obtain ⟨rows, rfl, hne, _, hlen⟩ := hwf
  obtain ⟨labels, hl⟩ := gatherLabels_isSome ((headers.length : Int) - 1) rows
    (fun r hr => hlab r (by simpa using hr))
  obtain ⟨parts, hp⟩ := gatherParts_isSome i ((headers.length : Int) - 1) rows []
    (fun r hr => ⟨hlab r (by simpa using hr), by rw [hlen r hr]; exact hi⟩)
  exact ⟨_, calculateIG_OnSubset_eq o (headers :: rows) i headers labels parts (by simp)
    (by simpa using hl) (by simpa using hp)⟩

theorem selectBest_isSome (o : HashOrder) (data : List (List String)) (idxs : List Nat)
    (st : Option Nat × ℝ) (h : ∀ i ∈ idxs, ∃ g, calculateIG_OnSubset o data i = some g) :
    ∃ st', selectBest o data idxs st = some st' := by
  induction idxs generalizing st with
  | nil => exact ⟨st, rfl⟩
  | cons i rest ih =>
    obtain ⟨g, hg⟩ := h i (List.mem_cons_self _ _)
    simp only [selectBest, hg]
    split
    · exact ih _ (fun j hj => h j (List.mem_cons_of_mem _ hj))
    · exact ih _ (fun j hj => h j (List.mem_cons_of_mem _ hj))

/-- On a well-formed dataset the body of `buildTree` reaches a `return` or
    the loop over the partitions: no index is out of range. -/
theorem buildStep_isSome (o : HashOrder) (data : List (List String)) (headers : List String)
    (hwf : WellFormed data headers) : ∃ s, buildStep o data headers = some s := by
  have hlab := hwf.getAt_label
  have hwf' := hwf
  obtain ⟨rows, rfl, hne, hrows, hlen⟩ := hwf
  obtain ⟨r1, rest, rfl⟩ := List.exists_cons_of_ne_nil hrows
  obtain ⟨fl, hfl⟩ := hlab r1 (by simp)
  obtain ⟨same, hsame⟩ := allSameLabels_isSome ((headers.length : Int) - 1) fl rest
    (fun r hr => hlab r (by simp [hr]))
  obtain ⟨freq, hfreq⟩ := labelFreq_isSome ((headers.length : Int) - 1) (r1 :: rest) []
    (fun r hr => hlab r (by simpa using hr))
  have hmaj : majorityLabel o (headers :: r1 :: rest) ((headers.length : Int) - 1) =
      some (pickMajority o freq) := by
    simp [majorityLabel, hfreq]
  unfold buildStep
  simp only [List.getElem?_cons_succ, List.getElem?_cons_zero, hfl, List.drop_succ_cons,
    List.drop_zero, hsame, hmaj, Option.map_some']
  cases same with
  | true => exact ⟨_, rfl⟩
  | false =>
    simp only
    split
    · exact ⟨_, rfl⟩
    · rename_i hcol
      obtain ⟨st, hst⟩ := selectBest_isSome o (headers :: r1 :: rest)
        (List.range (headers.length - 1)) (none, -1)
        (fun i hi => calculateIG_isSome o _ headers hwf' i
          (by have := List.mem_range.1 hi; omega))
      obtain ⟨b, g⟩ := st
      cases b with
      | none => simp only [hst]; exact ⟨_, rfl⟩
      | some b =>
        obtain ⟨hb, _⟩ := selectBest_first_max o _ _ b g hst
        have hbl : b < headers.length := by omega
        obtain ⟨parts, hparts⟩ := partitionRows_isSome b (r1 :: rest) []
          (fun r hr => by rw [hlen r hr]; exact hbl)
        simp only [hst, List.getElem?_eq_getElem hbl, hparts]
        exact ⟨_, rfl⟩

/-! ## The recursive calls -/

theorem mem_rowsWith (idx : Nat) (k : String) (rows : List (List String)) (x : List String)
    (h : x ∈ rowsWith idx k rows) : ∃ r ∈ rows, r[idx]? = some k ∧ x = r.eraseIdx idx := by
  unfold rowsWith at h
  obtain ⟨r, hr, rfl⟩ := List.mem_map.1 h
  obtain ⟨hr1, hr2⟩ := List.mem_filter.1 hr
  exact ⟨r, hr1, by simpa using hr2, rfl⟩

theorem mem_rowsWith_of_mem (idx : Nat) (k : String) (rows : List (List String))
    (r : List String) (hr : r ∈ rows) (hk : r[idx]? = some k) :
    r.eraseIdx idx ∈ rowsWith idx k rows := by
  unfold rowsWith
  exact List.mem_map_of_mem _ (List.mem_filter.2 ⟨hr, by simpa using hk⟩)

theorem rowsWith_length_le (idx : Nat) (k : String) (rows : List (List String)) :
    (rowsWith idx k rows).length ≤ rows.length := by
  unfold rowsWith
  rw [List.length_map]
  exact List.length_filter_le _ _

/-- Every partition is the list of the rows with its key. -/
theorem partitionRows_entry (bestIdx : Nat) (rows : List (List String))
    (parts : UMap (List (List String)))
    (h : partitionRows bestIdx rows [] = some parts) (kv : String × List (List String))
    (hkv : kv ∈ parts) : kv.2 = rowsWith bestIdx kv.1 rows ∧ kv.2 ≠ [] := by
  have nd := partitionRows_nodup bestIdx rows [] parts h List.nodup_nil
  have hf := UMap.find?_of_mem parts kv.1 kv.2 nd hkv
  rw [partitionRows_find_eq bestIdx rows parts h kv.1] at hf
  split at hf
  · exact Option.noConfusion hf
  · rename_i hne
    have e : rowsWith bestIdx kv.1 rows = kv.2 := by simpa using hf
    exact ⟨e.symm, e ▸ hne⟩

/-- The recursive calls of a well-formed call are well-formed, with a header
    one column shorter and no more data rows. -/
theorem split_wellFormed (o : HashOrder) (data : List (List String)) (headers : List String)
    (hwf : WellFormed data headers) (b : Nat) (a : String) (nh : List String)
    (parts : UMap (List (List String)))
    (h : buildStep o data headers = some (BuildStep.split b a nh parts)) :
    b + 1 < headers.length ∧ nh.length + 1 = headers.length ∧
    ∀ kv ∈ parts, WellFormed (nh :: kv.2) nh ∧ kv.2.length ≤ (data.drop 1).length := by
  obtain ⟨hlen3, _, hnh, hparts, g, hsel⟩ := buildStep_split_inv o data headers b a nh parts h
  obtain ⟨hb, _⟩ := selectBest_first_max o data _ b g hsel
  obtain ⟨rows, rfl, hne, hrows, hlen⟩ := hwf
  have hb' : b < headers.length := by omega
  have hnl : nh.length + 1 = headers.length := by
    rw [hnh, List.length_eraseIdx, if_pos hb']
    omega
  refine ⟨by omega, hnl, ?_⟩
  intro kv hkv
  simp only [List.drop_succ_cons, List.drop_zero] at hparts ⊢
  obtain ⟨hk1, hk2⟩ := partitionRows_entry b rows parts hparts kv hkv
  refine ⟨⟨kv.2, rfl, ?_, hk2, ?_⟩, ?_⟩
  · intro e
    rw [e] at hnl
    simp at hnl
    omega
  · intro x hx
    rw [hk1] at hx
    obtain ⟨r, hr, _, rfl⟩ := mem_rowsWith b kv.1 rows x hx
    rw [List.length_eraseIdx, if_pos (by rw [hlen r hr]; exact hb'), hlen r hr]
    omega
  · rw [hk1]
    exact rowsWith_length_le b kv.1 rows

/-! ## The loop over the partitions -/

theorem UMap.mem_update_assign {α : Type} (m : UMap α) (k : String) (c : α)
    (kc : String × α) (h : kc ∈ m.update k c (fun _ => c)) : kc ∈ m ∨ kc = (k, c) := by
  induction m with
  | nil =>
    simp only [UMap.update, List.mem_singleton] at h
    exact Or.inr h
  | cons kv rest ih =>
    obtain ⟨k1, v⟩ := kv
    by_cases hk : k1 = k
    · simp only [UMap.update, hk, if_true, List.mem_cons] at h
      rcases h with h | h
      · exact Or.inr h
      · exact Or.inl (List.mem_cons_of_mem _ h)
    · simp only [UMap.update, hk, if_false, List.mem_cons] at h
      rcases h with h | h
      · exact Or.inl (h ▸ List.mem_cons_self _ _)
      · rcases ih h with h | h
        · exact Or.inl (List.mem_cons_of_mem _ h)
        · exact Or.inr h

theorem buildChildren_mem (build : List (List String) → List String → Option TreeNode)
    (nh : List String) (parts : UMap (List (List String))) (acc ch : UMap TreeNode)
    (h : buildChildren build nh parts acc = some ch) (kc : String × TreeNode) (hkc : kc ∈ ch) :
    kc ∈ acc ∨ ∃ kv ∈ parts, kc.1 = kv.1 ∧ build (nh :: kv.2) nh = some kc.2 := by
  induction parts generalizing acc with
  | nil =>
    simp only [buildChildren, Option.some.injEq] at h
    subst h
    exact Or.inl hkc
  | cons kv rest ih =>
    cases hb : build (nh :: kv.2) nh with
    | none => simp [buildChildren, hb] at h
    | some child =>
      simp only [buildChildren, hb] at h
      rcases ih _ h with h1 | ⟨kv', hkv', e1, e2⟩
      · rcases UMap.mem_update_assign acc kv.1 child kc h1 with h2 | h2
        · exact Or.inl h2
        · refine Or.inr ⟨kv, List.mem_cons_self _ _, ?_, ?_⟩
          · rw [h2]
          · rw [h2]; exact hb
      · exact Or.inr ⟨kv', List.mem_cons_of_mem _ hkv', e1, e2⟩

theorem buildChildren_isSome (build : List (List String) → List String → Option TreeNode)
    (nh : List String) (parts : UMap (List (List String))) (acc : UMap TreeNode)
    (h : ∀ kv ∈ parts, ∃ c, build (nh :: kv.2) nh = some c) :
    ∃ ch, buildChildren build nh parts acc = some ch := by
  induction parts generalizing acc with
  | nil => exact ⟨acc, rfl⟩
  | cons kv rest ih =>
    obtain ⟨c, hc⟩ := h kv (List.mem_cons_self _ _)
    simp only [buildChildren, hc]
    exact ih _ (fun kv' hkv' => h kv' (List.mem_cons_of_mem _ hkv'))

theorem buildChildren_mono (build build' : List (List String) → List String → Option TreeNode)
    (hmono : ∀ d hd t, build d hd = some t → build' d hd = some t)
    (nh : List String) (parts : UMap (List (List String))) (acc ch : UMap TreeNode)
    (h : buildChildren build nh parts acc = some ch) :
    buildChildren build' nh parts acc = some ch := by
  induction parts generalizing acc with
  | nil => exact h
  | cons kv rest ih =>
    cases hb : build (nh :: kv.2) nh with
    | none => simp [buildChildren, hb] at h
    | some child =>
      simp only [buildChildren, hb] at h
      simp only [buildChildren, hmono _ _ _ hb]
      exact ih _ h

/-- The child stored under a key is the subtree built for the partition with
    that key. -/
theorem buildChildren_find (build : List (List String) → List String → Option TreeNode)
    (nh : List String) (parts : UMap (List (List String))) (acc ch : UMap TreeNode)
    (h : buildChildren build nh parts acc = some ch) (nd : parts.keys.Nodup) (k : String) :
    ch.find? k =
      match parts.find? k with
      | some rows => build (nh :: rows) nh
      | none => acc.find? k := by
  induction parts generalizing acc with
  | nil =>
    simp only [buildChildren, Option.some.injEq] at h
    subst h
    simp [UMap.find?]
  | cons kv rest ih =>
    cases hb : build (nh :: kv.2) nh with
    | none => simp [buildChildren, hb] at h
    | some child =>
      simp only [buildChildren, hb] at h
      obtain ⟨k1, rs⟩ := kv
      simp only [UMap.keys, List.map_cons, List.nodup_cons] at nd
      rw [ih _ h nd.2]
      by_cases hk : k1 = k
      · subst hk
        have hnone : UMap.find? rest k1 = none := (UMap.find?_eq_none_iff rest k1).2 nd.1
        simp [UMap.find?, hnone, UMap.find?_update_self, hb]
      · have hk' : k ≠ k1 := fun e => hk e.symm
        simp only [UMap.find?, hk, if_false]
        cases UMap.find? rest k with
        | none => simp [UMap.find?_update_ne _ _ _ _ _ hk']
        | some rows => rfl

theorem buildChildren_ne_nil (build : List (List String) → List String → Option TreeNode)
    (nh : List String) (parts : UMap (List (List String))) (acc ch : UMap TreeNode)
    (h : buildChildren build nh parts acc = some ch) (hne : parts ≠ [] ∨ acc ≠ []) :
    ch ≠ [] := by
  induction parts generalizing acc with
  | nil =>
    simp only [buildChildren, Option.some.injEq] at h
    subst h
    simpa using hne
  | cons kv rest ih =>
    cases hb : build (nh :: kv.2) nh with
    | none => simp [buildChildren, hb] at h
    | some child =>
      simp only [buildChildren, hb] at h
      apply ih _ h
      right
      cases acc with
      | nil => simp [UMap.update]
      | cons x xs =>
        obtain ⟨k1, v⟩ := x
        simp only [UMap.update]
        split <;> simp

/-! ## Termination and depth -/

theorem buildTreeAux_isSome (o : HashOrder) (fuel : Nat) (data : List (List String))
    (headers : List String) (hwf : WellFormed data headers) (hfuel : headers.length ≤ fuel) :
    ∃ t, buildTreeAux o fuel data headers = some t := by
  induction fuel generalizing data headers with
  | zero =>
    obtain ⟨_, _, hne, _, _⟩ := hwf
    have := List.length_pos.2 hne
    omega
  | succ fuel ih =>
    obtain ⟨s, hs⟩ := buildStep_isSome o data headers hwf
    rw [buildTreeAux_succ, hs]
    cases s with
    | leaf lab => exact ⟨_, rfl⟩
    | split b a nh parts =>
      obtain ⟨_, hnl, hch⟩ := split_wellFormed o data headers hwf b a nh parts hs
      obtain ⟨ch, hc⟩ := buildChildren_isSome (buildTreeAux o fuel) nh (o.iter parts) []
        (fun kv hkv => ih _ nh (hch kv ((o.perm parts).mem_iff.1 hkv)).1 (by omega))
      exact ⟨_, by simp only [hc]; rfl⟩

theorem buildTreeAux_mono (o : HashOrder) (fuel : Nat) (data : List (List String))
    (headers : List String) (t : TreeNode) (h : buildTreeAux o fuel data headers = some t)
    (fuel' : Nat) (hle : fuel ≤ fuel') : buildTreeAux o fuel' data headers = some t := by
  induction fuel generalizing data headers t fuel' with
  | zero => simp [buildTreeAux] at h
  | succ fuel ih =>
    obtain ⟨f', rfl⟩ : ∃ f', fuel' = f' + 1 := ⟨fuel' - 1, by omega⟩
    rw [buildTreeAux_succ] at h ⊢
    cases hs : buildStep o data headers with
    | none => simp [hs] at h
    | some s =>
      cases s with
      | leaf lab => simpa [hs] using h
      | split b a nh parts =>
        simp only [hs] at h ⊢
        cases hc : buildChildren (buildTreeAux o fuel) nh (o.iter parts) [] with
        | none => simp [hc] at h
        | some ch =>
          rw [hc] at h
          rw [buildChildren_mono (buildTreeAux o fuel) (buildTreeAux o f')
            (fun d hd t ht => ih d hd t ht f' (by omega)) nh (o.iter parts) [] ch hc]
          exact h

theorem childrenDepth_le (children : List (String × TreeNode)) (m : Nat)
    (h : ∀ kc ∈ children, kc.2.depth ≤ m) : childrenDepth children ≤ m := by
  induction children with
  | nil => simp [childrenDepth]
  | cons kc rest ih =>
    obtain ⟨k, c⟩ := kc
    simp only [childrenDepth]
    exact max_le (h (k, c) (List.mem_cons_self _ _))
      (ih (fun x hx => h x (List.mem_cons_of_mem _ hx)))

theorem buildTreeAux_depth (o : HashOrder) (fuel : Nat) (data : List (List String))
    (headers : List String) (hwf : WellFormed data headers) (t : TreeNode)
    (h : buildTreeAux o fuel data headers = some t) : t.depth + 1 ≤ headers.length := by
  induction fuel generalizing data headers t with
  | zero => simp [buildTreeAux] at h
  | succ fuel ih =>
    have hpos : 0 < headers.length := by
      obtain ⟨_, _, hne, _, _⟩ := hwf
      exact List.length_pos.2 hne
    rcases buildTreeAux_inv o _ data headers t h with
      ⟨lab, _, rfl⟩ | ⟨fuel', b, a, nh, parts, children, hf, hs, hc, rfl⟩
    · simp [TreeNode.depth]
      omega
    · have hf' : fuel' = fuel := by omega
      subst hf'
      obtain ⟨hb, hnl, hch⟩ := split_wellFormed o data headers hwf b a nh parts hs
      have hcd : childrenDepth children ≤ nh.length - 1 := by
        apply childrenDepth_le
        intro kc hkc
        rcases buildChildren_mem _ nh _ [] children hc kc hkc with h1 | ⟨kv, hkv, _, hb⟩
        · simp at h1
        · have := ih _ nh (hch kv ((o.perm parts).mem_iff.1 hkv)).1 kc.2 hb
          omega
      simp only [TreeNode.depth]
      split <;> omega

/-! ## A dataset with two partitions -/

theorem calculateEntropy_replicate (o : HashOrder) (lab : String) (n : Nat) :
    calculateEntropy o (List.replicate (n + 1) lab) = 0 := by
  rw [calculateEntropy_eq]
  have h : (List.replicate (n + 1) lab).toFinset = {lab} := by
    ext x
    simp [List.mem_replicate]
  rw [h]
  have hn : ((n : ℝ) + 1) / ((n : ℝ) + 1) = 1 := div_self (by positivity)
  simp [hn]

theorem calculateIG_splitData_A (o : HashOrder) :
    calculateIG_OnSubset o splitData 0 = some (calculateEntropy o ["Yes", "No", "Yes"]) := by
  rw [calculateIG_OnSubset_eq o splitData 0 ["A", "B", "L"] ["Yes", "No", "Yes"]
    [("x", ["Yes", "Yes"]), ("y", ["No"])] rfl rfl rfl]
  have h1 := calculateEntropy_replicate o "Yes" 1
  have h2 := calculateEntropy_replicate o "No" 0
  simp only [List.replicate] at h1 h2
  simp [h1, h2]

theorem calculateIG_splitData_B (o : HashOrder) :
    ∃ g, calculateIG_OnSubset o splitData 1 = some g ∧
      g ≤ calculateEntropy o ["Yes", "No", "Yes"] := by
  refine ⟨_, calculateIG_OnSubset_eq o splitData 1 ["A", "B", "L"] ["Yes", "No", "Yes"]
    [("p", ["Yes", "No"]), ("q", ["Yes"])] rfl rfl rfl, ?_⟩
  have h1 := calculateEntropy_nonneg o ["Yes", "No"]
  have h2 := calculateEntropy_nonneg o ["Yes"]
  simp only [List.map_cons, List.map_nil, List.sum_cons, List.sum_nil, List.length_cons,
    List.length_nil]
  have : (0 : ℝ) ≤ ((0 + 1 + 1 : ℕ) : ℝ) / ((0 + 1 + 1 + 1 : ℕ) : ℝ) *
      calculateEntropy o ["Yes", "No"] +
      (((0 + 1 : ℕ) : ℝ) / ((0 + 1 + 1 + 1 : ℕ) : ℝ) * calculateEntropy o ["Yes"] + 0) := by
    positivity
  linarith

theorem buildStep_splitData (o : HashOrder) :
    buildStep o splitData ["A", "B", "L"] =
      some (BuildStep.split 0 "A" ["B", "L"]
        [("x", [["p", "Yes"], ["q", "Yes"]]), ("y", [["p", "No"]])]) := by
  obtain ⟨g, hg, hle⟩ := calculateIG_splitData_B o
  have hnn := calculateEntropy_nonneg o ["Yes", "No", "Yes"]
  have hsel : selectBest o splitData (List.range (3 - 1)) (none, -1) =
      some (some 0, calculateEntropy o ["Yes", "No", "Yes"]) := by
    have h1 : calculateEntropy o ["Yes", "No", "Yes"] > -1 := by linarith
    have h2 : ¬ g > calculateEntropy o ["Yes", "No", "Yes"] := not_lt.2 hle
    simp [List.range, List.range.loop, selectBest, calculateIG_splitData_A, hg, h1, h2]
  have h1 : splitData[1]? = some ["x", "p", "Yes"] := rfl
  have h2 : getAt ["x", "p", "Yes"] (((["A", "B", "L"] : List String).length : Int) - 1) =
      some "Yes" := rfl
  have h3 : allSameLabels (((["A", "B", "L"] : List String).length : Int) - 1) "Yes"
      (splitData.drop 2) = some false := rfl
  have h4 : partitionRows 0 (splitData.drop 1) [] =
      some [("x", [["p", "Yes"], ["q", "Yes"]]), ("y", [["p", "No"]])] := rfl
  simp only [buildStep, h1, h2, h3]
  simp only [List.length_cons, List.length_nil, Nat.reduceAdd, Nat.reduceLeDiff, if_false]
  rw [hsel]
  simp only [h4]
  rfl

theorem partitionRows_rows_have_column (bestIdx : Nat) (rows : List (List String))
    (acc parts : UMap (List (List String)))
    (h : partitionRows bestIdx rows acc = some parts) :
    ∀ r ∈ rows, ∃ k, r[bestIdx]? = some k := by
  induction rows generalizing acc with
  | nil => simp
  | cons r rest ih =>
    cases hget : r[bestIdx]? with
    | none => simp [partitionRows, hget] at h
    | some val =>
      simp only [partitionRows, hget] at h
      intro r' hr'
      rcases List.mem_cons.1 hr' with e | e
      · exact ⟨val, by rw [e, hget]⟩
      · exact ih _ h r' e

/-! ## The parts of `calculateIG_OnSubset` -/

theorem UMap.sum_update_append (μ : List String → ℝ) (δ : String → ℝ)
    (hμ : ∀ l x, μ (l ++ [x]) = μ l + δ x) (h0 : μ [] = 0)
    (m : UMap (List String)) (k : String) (x : String) :
    ((m.update k [] (fun labs => labs ++ [x])).map (fun kv => μ kv.2)).sum =
      (m.map (fun kv => μ kv.2)).sum + δ x := by
  induction m with
  | nil =>
    have := hμ [] x
    simp only [List.nil_append, h0, zero_add] at this
    simp [UMap.update, this]
  | cons kv rest ih =>
    obtain ⟨k1, v⟩ := kv
    by_cases h : k1 = k
    · simp only [UMap.update, h, if_true, List.map_cons, List.sum_cons, hμ]
      ring
    · simp only [UMap.update, h, if_false, List.map_cons, List.sum_cons, ih]
      ring

theorem gatherParts_sum (attrIdx : Nat) (labelIdx : Int) (rows : List (List String))
    (acc parts : UMap (List String)) (labels : List String)
    (hp : gatherParts attrIdx labelIdx rows acc = some parts)
    (hl : gatherLabels labelIdx rows = some labels)
    (μ : List String → ℝ) (δ : String → ℝ)
    (hμ : ∀ l x, μ (l ++ [x]) = μ l + δ x) (h0 : μ [] = 0) :
    (parts.map (fun kv => μ kv.2)).sum =
      (acc.map (fun kv => μ kv.2)).sum + (labels.map δ).sum := by
  induction rows generalizing acc labels with
  | nil =>
    simp only [gatherParts, gatherLabels, Option.some.injEq] at hp hl
    subst hp
    subst hl
    simp
  | cons r rest ih =>
    cases hx : getAt r labelIdx with
    | none => simp [gatherLabels, hx] at hl
    | some lab =>
      cases hv : r[attrIdx]? with
      | none => simp [gatherParts, hv] at hp
      | some val =>
        simp only [gatherParts, hx, hv] at hp
        simp only [gatherLabels, hx] at hl
        cases hrest : gatherLabels labelIdx rest with
        | none => simp [hrest] at hl
        | some labs =>
          simp only [hrest, Option.map_some', Option.some.injEq] at hl
          subst hl
          rw [ih _ labs hp hrest, UMap.sum_update_append μ δ hμ h0]
          simp only [List.map_cons, List.sum_cons]
          ring

theorem gatherParts_nodup (attrIdx : Nat) (labelIdx : Int) (rows : List (List String))
    (acc parts : UMap (List String))
    (hp : gatherParts attrIdx labelIdx rows acc = some parts) (nd : acc.keys.Nodup) :
    parts.keys.Nodup := by
  induction rows generalizing acc with
  | nil =>
    simp only [gatherParts, Option.some.injEq] at hp
    subst hp
    exact nd
  | cons r rest ih =>
    cases hx : getAt r labelIdx with
    | none => cases hv : r[attrIdx]? <;> simp [gatherParts, hx, hv] at hp
    | some lab =>
      cases hv : r[attrIdx]? with
      | none => simp [gatherParts, hv] at hp
      | some val =>
        simp only [gatherParts, hx, hv] at hp
        exact ih _ hp (UMap.nodup_keys_update _ _ _ _ nd)

theorem UMap.update_append_ne_nil (m : UMap (List String)) (k x : String)
    (h : ∀ kv ∈ m, kv.2 ≠ []) :
    ∀ kv ∈ m.update k [] (fun labs => labs ++ [x]), kv.2 ≠ [] := by
  induction m with
  | nil => simp [UMap.update]
  | cons kv rest ih =>
    obtain ⟨k1, v⟩ := kv
    by_cases hk : k1 = k
    · simp only [UMap.update, hk, if_true, List.mem_cons]
      rintro kv' (e | e)
      · rw [e]; simp
      · exact h kv' (List.mem_cons_of_mem _ e)
    · simp only [UMap.update, hk, if_false, List.mem_cons]
      rintro kv' (e | e)
      · rw [e]; exact h (k1, v) (List.mem_cons_self _ _)
      · exact ih (fun kv'' h'' => h kv'' (List.mem_cons_of_mem _ h'')) kv' e

theorem gatherParts_ne_nil (attrIdx : Nat) (labelIdx : Int) (rows : List (List String))
    (acc parts : UMap (List String))
    (hp : gatherParts attrIdx labelIdx rows acc = some parts) (h : ∀ kv ∈ acc, kv.2 ≠ []) :
    ∀ kv ∈ parts, kv.2 ≠ [] := by
  induction rows generalizing acc with
  | nil =>
    simp only [gatherParts, Option.some.injEq] at hp
    subst hp
    exact h
  | cons r rest ih =>
    cases hx : getAt r labelIdx with
    | none => cases hv : r[attrIdx]? <;> simp [gatherParts, hx, hv] at hp
    | some lab =>
      cases hv : r[attrIdx]? with
      | none => simp [gatherParts, hv] at hp
      | some val =>
        simp only [gatherParts, hx, hv] at hp
        exact ih _ hp (UMap.update_append_ne_nil acc val lab h)

/-! ## Non-negative gain -/

/-- The entropy as a sum of `negMulLog` over any set that contains the labels. -/
theorem calculateEntropy_mul_log (o : HashOrder) (labels : List String) (Y : Finset String)
    (hY : labels.toFinset ⊆ Y) :
    calculateEntropy o labels * Real.log 2 =
      ∑ y in Y, Real.negMulLog ((labels.count y : ℝ) / (labels.length : ℝ)) := by
  have hlog2 : Real.log 2 ≠ 0 := (Real.log_pos (by norm_num)).ne'
  rw [calculateEntropy_eq, ← Finset.sum_subset hY]
  · rw [neg_mul, Finset.sum_mul, ← Finset.sum_neg_distrib]
    apply Finset.sum_congr rfl
    intro y _
    rw [Real.negMulLog, Real.logb, neg_mul, mul_assoc, div_mul_cancel₀ _ hlog2]
  · intro y _ hy
    have : labels.count y = 0 := List.count_eq_zero.2 (fun h => hy (List.mem_toFinset.2 h))
    simp [this]

theorem remainder_le_entropy (o : HashOrder) (labels : List String)
    (parts : UMap (List String)) (nd : parts.keys.Nodup) (hne : ∀ kv ∈ parts, kv.2 ≠ [])
    (hlen : (parts.map (fun kv => (kv.2.length : ℝ))).sum = (labels.length : ℝ))
    (hcount : ∀ y, (parts.map (fun kv => (kv.2.count y : ℝ))).sum = (labels.count y : ℝ)) :
    (parts.map (fun kv =>
      ((kv.2.length : ℝ) / (labels.length : ℝ)) * calculateEntropy o kv.2)).sum ≤
      calculateEntropy o labels := by
  have hlog2 : 0 < Real.log 2 := Real.log_pos (by norm_num)
  have ndl : parts.Nodup := List.Nodup.of_map Prod.fst nd
  -- sums over the list of parts as sums over a finite set
  have toF : ∀ f : String × List String → ℝ, (parts.map f).sum = ∑ kv in parts.toFinset, f kv :=
    fun f => (List.sum_toFinset f ndl).symm
  rw [toF] at hlen
  simp only [toF] at hcount
  rw [toF]
  by_cases hn : labels.length = 0
  · have hnil : labels = [] := List.length_eq_zero.1 hn
    subst hnil
    have : ∀ kv ∈ parts.toFinset,
        ((kv.2.length : ℝ) / ((([] : List String).length : ℕ) : ℝ)) * calculateEntropy o kv.2 = 0 := by
      intro kv _
      simp
    rw [Finset.sum_congr rfl this]
    simp [calculateEntropy_nonneg]
  have hnR : (0 : ℝ) < (labels.length : ℝ) := by
    exact_mod_cast Nat.pos_of_ne_zero hn
  set n : ℝ := (labels.length : ℝ) with hn_def
  set Y := labels.toFinset with hY_def
  have hsub : ∀ kv ∈ parts.toFinset, kv.2.toFinset ⊆ Y := by
    intro kv hkv y hy
    have hy' : y ∈ kv.2 := List.mem_toFinset.1 hy
    have hpos : (0 : ℝ) < (kv.2.count y : ℝ) := by
      exact_mod_cast List.count_pos_iff.2 hy'
    have hle : (kv.2.count y : ℝ) ≤ ∑ kv' in parts.toFinset, (kv'.2.count y : ℝ) :=
      Finset.single_le_sum (f := fun kv' : String × List String => (kv'.2.count y : ℝ))
        (fun _ _ => by positivity) hkv
    rw [hcount y] at hle
    have : 0 < labels.count y := by
      have : (0 : ℝ) < (labels.count y : ℝ) := lt_of_lt_of_le hpos hle
      exact_mod_cast this
    exact List.mem_toFinset.2 (List.count_pos_iff.1 this)
  have hw1 : ∑ kv in parts.toFinset, (kv.2.length : ℝ) / n = 1 := by
    rw [← Finset.sum_div, hlen, div_self hnR.ne']
  -- Jensen's inequality for every label
  have hjensen : ∀ y ∈ Y,
      ∑ kv in parts.toFinset, ((kv.2.length : ℝ) / n) *
          Real.negMulLog ((kv.2.count y : ℝ) / (kv.2.length : ℝ)) ≤
        Real.negMulLog ((labels.count y : ℝ) / n) := by
    intro y _
    have hJ := Real.concaveOn_negMulLog.le_map_sum (t := parts.toFinset)
      (w := fun kv => (kv.2.length : ℝ) / n)
      (p := fun kv => (kv.2.count y : ℝ) / (kv.2.length : ℝ))
      (fun kv _ => by positivity) hw1 (fun kv _ => by
        simp only [Set.mem_Ici]
        positivity)
    simp only [smul_eq_mul] at hJ
    have hpt : ∑ kv in parts.toFinset,
        ((kv.2.length : ℝ) / n) * ((kv.2.count y : ℝ) / (kv.2.length : ℝ)) =
        (labels.count y : ℝ) / n := by
      rw [← hcount y, Finset.sum_div]
      apply Finset.sum_congr rfl
      intro kv hkv
      have hl : (kv.2.length : ℝ) ≠ 0 := by
        have := hne kv (List.mem_toFinset.1 hkv)
        exact_mod_cast (List.length_pos.2 this).ne'
      field_simp
      ring
    rw [hpt] at hJ
    exact hJ
  have hsum := Finset.sum_le_sum hjensen
  rw [Finset.sum_comm] at hsum
  have hinner : ∀ kv ∈ parts.toFinset,
      ∑ y in Y, ((kv.2.length : ℝ) / n) *
          Real.negMulLog ((kv.2.count y : ℝ) / (kv.2.length : ℝ)) =
        (((kv.2.length : ℝ) / n) * calculateEntropy o kv.2) * Real.log 2 := by
    intro kv hkv
    rw [← Finset.mul_sum, ← calculateEntropy_mul_log o kv.2 Y (hsub kv hkv)]
    ring
  rw [Finset.sum_congr rfl hinner, ← Finset.sum_mul,
    ← calculateEntropy_mul_log o labels Y (Finset.Subset.refl _)] at hsum
  exact le_of_mul_le_mul_right hsum hlog2

/-- The information gain computed by `calculateIG_OnSubset` is never negative. -/
theorem calculateIG_OnSubset_nonneg (o : HashOrder) (subset : List (List String))
    (attrIdx : Nat) (g : ℝ) (h : calculateIG_OnSubset o subset attrIdx = some g) : 0 ≤ g := by
  cases h0 : subset[0]? with
  | none => simp [calculateIG_OnSubset, h0] at h
  | some row0 =>
    cases hl : gatherLabels ((row0.length : Int) - 1) (subset.drop 1) with
    | none => simp only [calculateIG_OnSubset, h0, hl] at h; exact Option.noConfusion h
    | some labels =>
      cases hp : gatherParts attrIdx ((row0.length : Int) - 1) (subset.drop 1) [] with
      | none => simp only [calculateIG_OnSubset, h0, hl, hp] at h; exact Option.noConfusion h
      | some parts =>
        rw [calculateIG_OnSubset_eq o subset attrIdx row0 labels parts h0 hl hp] at h
        simp only [Option.some.injEq] at h
        rw [← h, sub_nonneg]
        apply remainder_le_entropy o labels parts
        · exact gatherParts_nodup _ _ _ [] parts hp List.nodup_nil
        · exact gatherParts_ne_nil _ _ _ [] parts hp (by simp)
        · have := gatherParts_sum _ _ _ [] parts labels hp hl
            (fun l => (l.length : ℝ)) (fun _ => 1) (by intro l x; simp) (by simp)
          simpa using this
        · intro y
          have := gatherParts_sum _ _ _ [] parts labels hp hl
            (fun l => (l.count y : ℝ)) (fun x => if x = y then 1 else 0)
            (by
              intro l x
              by_cases hxy : x = y
              · simp [List.count_append, hxy]
              · have hxy' : ¬ (x == y) = true := by simpa using hxy
                simp [List.count_append, List.count_cons, hxy, hxy'])
            (by simp)
          rw [this]
          simp only [List.map_nil, List.sum_nil, zero_add]
          clear this hp hl h
          induction labels with
          | nil => simp
          | cons x xs ih =>
            by_cases hxy : x = y
            · simp [hxy, ih]; ring
            · have hxy' : ¬ (x == y) = true := by simpa using hxy
              simp [hxy, List.count_cons, hxy', ih]

/-! ## Rows with a column erased -/

theorem getLast?_eraseIdx (l : List String) (b : Nat) (h : b + 1 < l.length) :
    (l.eraseIdx b).getLast? = l.getLast? := by
  rw [List.getLast?_eq_getElem?, List.getLast?_eq_getElem?, List.length_eraseIdx,
    if_pos (by omega), List.getElem?_eraseIdx_of_ge _ _ _ (by omega)]
  congr 1
  omega

/-- The separation hypothesis of the round trip survives a split. -/
theorem separated_rowsWith (n b : Nat) (k : String) (rows : List (List String))
    (hb : b + 1 < n)
    (hsep : ∀ x ∈ rows, ∀ y ∈ rows, x.getLast? ≠ y.getLast? →
      ∃ i j, i < j ∧ j + 1 < n ∧ x[i]? ≠ y[i]? ∧ x[j]? ≠ y[j]?)
    (hlen : ∀ x ∈ rows, x.length = n) :
    ∀ x ∈ rowsWith b k rows, ∀ y ∈ rowsWith b k rows, x.getLast? ≠ y.getLast? →
      ∃ i j, i < j ∧ j + 1 < n - 1 ∧ x[i]? ≠ y[i]? ∧ x[j]? ≠ y[j]? := by
  intro x' hx' y' hy' hne
  obtain ⟨x, hx, hxk, rfl⟩ := mem_rowsWith b k rows x' hx'
  obtain ⟨y, hy, hyk, rfl⟩ := mem_rowsWith b k rows y' hy'
  rw [getLast?_eraseIdx x b (by rw [hlen x hx]; exact hb),
    getLast?_eraseIdx y b (by rw [hlen y hy]; exact hb)] at hne
  obtain ⟨i, j, hij, hj, hi', hj'⟩ := hsep x hx y hy hne
  have hib : i ≠ b := by
    intro e; subst e; exact hi' (by rw [hxk, hyk])
  have hjb : j ≠ b := by
    intro e; subst e; exact hj' (by rw [hxk, hyk])
  by_cases h1 : i < b
  · by_cases h2 : j < b
    · refine ⟨i, j, hij, by omega, ?_, ?_⟩
      · rw [List.getElem?_eraseIdx_of_lt _ _ _ h1, List.getElem?_eraseIdx_of_lt _ _ _ h1]
        exact hi'
      · rw [List.getElem?_eraseIdx_of_lt _ _ _ h2, List.getElem?_eraseIdx_of_lt _ _ _ h2]
        exact hj'
    · refine ⟨i, j - 1, by omega, by omega, ?_, ?_⟩
      · rw [List.getElem?_eraseIdx_of_lt _ _ _ h1, List.getElem?_eraseIdx_of_lt _ _ _ h1]
        exact hi'
      · rw [List.getElem?_eraseIdx_of_ge _ _ _ (by omega),
          List.getElem?_eraseIdx_of_ge _ _ _ (by omega)]
        have : j - 1 + 1 = j := by omega
        rw [this]
        exact hj'
  · refine ⟨i - 1, j - 1, by omega, by omega, ?_, ?_⟩
    · rw [List.getElem?_eraseIdx_of_ge _ _ _ (by omega),
        List.getElem?_eraseIdx_of_ge _ _ _ (by omega)]
      have : i - 1 + 1 = i := by omega
      rw [this]
      exact hi'
    · rw [List.getElem?_eraseIdx_of_ge _ _ _ (by omega),
        List.getElem?_eraseIdx_of_ge _ _ _ (by omega)]
      have : j - 1 + 1 = j := by omega
      rw [this]
      exact hj'

/-- A record that maps every attribute name to the row's value still does so
    after the column `b` is erased from the header and the row. -/
theorem record_eraseIdx (input : UMap String) (headers r : List String) (b : Nat)
    (hin : ∀ i a, i + 1 < headers.length → headers[i]? = some a → input.find? a = r[i]?) :
    ∀ i a, i + 1 < (headers.eraseIdx b).length → (headers.eraseIdx b)[i]? = some a →
      input.find? a = (r.eraseIdx b)[i]? := by
  intro i a hi ha
  have hle : (headers.eraseIdx b).length ≤ headers.length := List.length_eraseIdx_le _ _
  by_cases h1 : i < b
  · rw [List.getElem?_eraseIdx_of_lt _ _ _ h1] at ha ⊢
    exact hin i a (by omega) ha
  · rw [List.getElem?_eraseIdx_of_ge _ _ _ (by omega)] at ha ⊢
    have hlt : i + 1 < headers.length := by
      by_contra hcon
      rw [List.getElem?_eq_none (by omega)] at ha
      exact Option.noConfusion ha
    by_cases hb : b < headers.length
    · rw [List.length_eraseIdx, if_pos hb] at hi
      exact hin (i + 1) a (by omega) ha
    · exfalso
      omega

/-! ## Inversion of a leaf step -/

theorem buildStep_leaf_inv (o : HashOrder) (data : List (List String)) (headers : List String)
    (lab : String) (h : buildStep o data headers = some (BuildStep.leaf lab)) :
    ∃ row1 firstLab, data[1]? = some row1 ∧
      getAt row1 ((headers.length : Int) - 1) = some firstLab ∧
      ((allSameLabels ((headers.length : Int) - 1) firstLab (data.drop 2) = some true ∧
          lab = firstLab) ∨
        (allSameLabels ((headers.length : Int) - 1) firstLab (data.drop 2) = some false ∧
          (headers.length ≤ 2 ∨
            (2 < headers.length ∧
              ∃ g, selectBest o data (List.range (headers.length - 1)) (none, -1) =
                some (none, g))))) := by
  unfold buildStep at h
  simp only at h
  split at h
  · exact Option.noConfusion h
  · rename_i row1 h1
    split at h
    · exact Option.noConfusion h
    · rename_i firstLab h2
      refine ⟨row1, firstLab, h1, h2, ?_⟩
      split at h
      · exact Option.noConfusion h
      · rename_i h3
        simp only [Option.some.injEq, BuildStep.leaf.injEq] at h
        exact Or.inl ⟨h3, h.symm⟩
      · rename_i h3
        refine Or.inr ⟨h3, ?_⟩
        split at h
        · rename_i hcol
          exact Or.inl hcol
        · rename_i hcol
          right
          refine ⟨by omega, ?_⟩
          split at h
          · exact Option.noConfusion h
          · rename_i g hsel
            exact ⟨g, hsel⟩
          · split at h
            · exact Option.noConfusion h
            · split at h
              · exact Option.noConfusion h
              · simp at h

/-- With a column available, the selection loop always chooses one: gains
    are never negative, so the first gain exceeds `-1.0`. -/
theorem selectBest_ne_none (o : HashOrder) (data : List (List String)) (n : Nat) (hn : 0 < n)
    (g : ℝ) (h : selectBest o data (List.range n) (none, -1) = some (none, g)) : False := by
  obtain ⟨hall, _, hcase⟩ := selectBest_spec o data (List.range n) none (-1) none g h
  rcases hcase with ⟨_, hg⟩ | ⟨_, _, _, _, hb, _⟩
  · obtain ⟨g0, hg0, hle⟩ := hall 0 (List.mem_range.2 hn)
    have := calculateIG_OnSubset_nonneg o data 0 g0 hg0
    rw [hg] at hle
    linarith
  · exact Option.noConfusion hb

/-! ## Prediction round trip -/

theorem round_trip_aux (o : HashOrder) (input : UMap String) (fuel : Nat) :
    ∀ (headers : List String) (rows : List (List String)) (r : List String),
      headers.length ≤ fuel → headers ≠ [] →
      (∀ x ∈ rows, x.length = headers.length) →
      (∀ x ∈ rows, x.getLast? ≠ some "") →
      (∀ x ∈ rows, ∀ y ∈ rows, x.getLast? ≠ y.getLast? →
        ∃ i j, i < j ∧ j + 1 < headers.length ∧ x[i]? ≠ y[i]? ∧ x[j]? ≠ y[j]?) →
      r ∈ rows →
      (∀ i a, i + 1 < headers.length → headers[i]? = some a → input.find? a = r[i]?) →
      ∃ root, buildTreeAux o fuel (headers :: rows) headers = some root ∧
        some (predictFrom input root) = r.getLast? := by
  induction fuel with
  | zero =>
    intro headers rows r hfuel hne
    have := List.length_pos.2 hne
    omega
  | succ fuel ih =>
    intro headers rows r hfuel hne hlen hlab hsep hr hin
    have hwf : WellFormed (headers :: rows) headers :=
      ⟨rows, rfl, hne, List.ne_nil_of_mem hr, hlen⟩
    have hpos : 0 < headers.length := List.length_pos.2 hne
    have hlast : ∀ x ∈ rows, getAt x ((headers.length : Int) - 1) = x.getLast? :=
      fun x hx => getAt_pred_length x headers.length (hlen x hx)
    obtain ⟨root, hroot⟩ := buildTreeAux_isSome o (fuel + 1) (headers :: rows) headers hwf hfuel
    refine ⟨root, hroot, ?_⟩
    rcases buildTreeAux_inv o _ _ headers root hroot with
      ⟨lab, hs, rfl⟩ | ⟨fuel', b, a, nh, parts, children, hf, hs, hc, rfl⟩
    · -- the call returned a leaf
      obtain ⟨row1, firstLab, h1, h2, hcase⟩ := buildStep_leaf_inv o _ headers lab hs
      obtain ⟨rest, rfl⟩ : ∃ rest, rows = row1 :: rest := by
        cases rows with
        | nil => simp at hr
        | cons r1 rest =>
          simp only [List.getElem?_cons_succ, List.getElem?_cons_zero, Option.some.injEq] at h1
          exact ⟨rest, by rw [h1]⟩
      simp only [List.drop_succ_cons, List.drop_zero] at hcase
      have hrow1 : row1.getLast? = some firstLab := by
        rw [← hlast row1 (List.mem_cons_self _ _)]; exact h2
      rcases hcase with ⟨hall, rfl⟩ | ⟨hnot, hcol⟩
      · have hrl : r.getLast? = some lab := by
          rcases List.mem_cons.1 hr with e | e
          · rw [e]; exact hrow1
          · rw [← hlast r hr]
            exact allSameLabels_true _ _ _ hall r e
        have hlne : lab ≠ "" := by
          intro e
          exact hlab r hr (by rw [hrl, e])
        rw [hrl]
        simp [predictFrom, hlne]
      · exfalso
        obtain ⟨r2, hr2, x, hx, hxne⟩ := allSameLabels_false _ _ _ hnot
        have hr2' : r2 ∈ row1 :: rest := List.mem_cons_of_mem _ hr2
        have hdiff : row1.getLast? ≠ r2.getLast? := by
          rw [hrow1, ← hlast r2 hr2', hx]
          intro e
          exact hxne (Option.some.inj e).symm
        rcases hcol with hcol | ⟨hcol, g, hsel⟩
        · obtain ⟨i, j, hij, hj, _, _⟩ := hsep row1 (List.mem_cons_self _ _) r2 hr2' hdiff
          omega
        · exact selectBest_ne_none o _ (headers.length - 1) (by omega) g hsel
    · -- the call split on column `b`
      have hf' : fuel' = fuel := by omega
      subst hf'
      obtain ⟨hb, hnl, hch⟩ := split_wellFormed o _ headers hwf b a nh parts hs
      obtain ⟨_, ha, hnh, hparts, _⟩ := buildStep_split_inv o _ headers b a nh parts hs
      simp only [List.drop_succ_cons, List.drop_zero] at hparts
      have hrb : b < r.length := by rw [hlen r hr]; omega
      have hval : r[b]? = some r[b] := List.getElem?_eq_getElem hrb
      have hmem := mem_rowsWith_of_mem b r[b] rows r hr hval
      have hfind : parts.find? r[b] = some (rowsWith b r[b] rows) := by
        rw [partitionRows_find_eq b rows parts hparts, if_neg (List.ne_nil_of_mem hmem)]
      have hkv : (r[b], rowsWith b r[b] rows) ∈ parts := UMap.mem_of_find? _ _ _ hfind
      have hnd : parts.keys.Nodup := partitionRows_nodup b rows [] parts hparts List.nodup_nil
      have hnd' : (o.iter parts).keys.Nodup :=
        (((o.perm parts).map Prod.fst).nodup_iff).2 hnd
      have hcf := buildChildren_find (buildTreeAux o fuel') nh (o.iter parts) [] children hc
        hnd' r[b]
      rw [UMap.find?_perm parts (o.iter parts) r[b] hnd (o.perm parts), hfind] at hcf
      simp only at hcf
      obtain ⟨_, _, hnne, _, _⟩ := (hch _ hkv).1
      obtain ⟨root', hroot', hpred⟩ := ih nh (rowsWith b r[b] rows) (r.eraseIdx b)
        (by omega) hnne
        (fun x hx => by
          obtain ⟨x0, hx0, _, rfl⟩ := mem_rowsWith b r[b] rows x hx
          rw [List.length_eraseIdx, if_pos (by rw [hlen x0 hx0]; omega), hlen x0 hx0]
          omega)
        (fun x hx => by
          obtain ⟨x0, hx0, _, rfl⟩ := mem_rowsWith b r[b] rows x hx
          rw [getLast?_eraseIdx x0 b (by rw [hlen x0 hx0]; exact hb)]
          exact hlab x0 hx0)
        (by
          have := separated_rowsWith headers.length b r[b] rows hb hsep hlen
          have hn1 : nh.length = headers.length - 1 := by omega
          rw [hn1]
          exact this)
        hmem
        (by
          rw [hnh]
          exact record_eraseIdx input headers r b hin)
      rw [getLast?_eraseIdx r b (by rw [hlen r hr]; exact hb)] at hpred
      rw [← hpred, predictFrom_eq]
      have hia : input.find? a = some r[b] := by
        rw [hin b a hb ha, hval]
      rw [hroot'] at hcf
      simp [TreeNode.label, TreeNode.attr, TreeNode.children, hia, hcf]

theorem separatedData_separated :
    ∀ x ∈ separatedData.drop 1, ∀ y ∈ separatedData.drop 1, x.getLast? ≠ y.getLast? →
      ∃ i j, i < j ∧ j + 1 < (["A", "B", "L"] : List String).length ∧
        x[i]? ≠ y[i]? ∧ x[j]? ≠ y[j]? := by
  have key : ∀ x ∈ separatedData.drop 1, ∀ y ∈ separatedData.drop 1,
      x.getLast? ≠ y.getLast? → x[0]? ≠ y[0]? ∧ x[1]? ≠ y[1]? := by decide
  intro x hx y hy hne
  exact ⟨0, 1, by decide, by decide, (key x hx y hy hne).1, (key x hx y hy hne).2⟩

theorem separatedData_record :
    ∀ i a, i + 1 < (["A", "B", "L"] : List String).length →
      (["A", "B", "L"] : List String)[i]? = some a →
      UMap.find? [("A", "y"), ("B", "q")] a = (["y", "q", "No"] : List String)[i]? := by
  intro i a hi ha
  have h : i = 0 ∨ i = 1 := by
    simp only [List.length_cons, List.length_nil] at hi
    omega
  rcases h with h | h <;> subst h
  · simp only [List.getElem?_cons_zero, Option.some.injEq] at ha
    subst ha
    rfl
  · simp only [List.getElem?_cons_succ, List.getElem?_cons_zero, Option.some.injEq] at ha
    subst ha
    rfl

/-- The fallback `if (bestIdx < 0)` of `buildTree` is never taken: when a
    call with at least two attribute columns returns a leaf, it is the
    homogeneous stop (every data row carries the leaf's label). -/
theorem buildStep_leaf_of_three_columns (o : HashOrder) (data : List (List String))
    (headers : List String) (lab : String) (hcol : 2 < headers.length)
    (h : buildStep o data headers = some (BuildStep.leaf lab)) :
    ∀ r ∈ data.drop 1, getAt r ((headers.length : Int) - 1) = some lab := by
  obtain ⟨row1, firstLab, h1, h2, hcase⟩ := buildStep_leaf_inv o data headers lab h
  rcases hcase with ⟨hall, rfl⟩ | ⟨_, hle | ⟨_, g, hsel⟩⟩
  · intro r hr
    obtain ⟨d0, rest, rfl⟩ : ∃ d0 rest, data = d0 :: rest := by
      cases data with
      | nil => simp at h1
      | cons d0 rest => exact ⟨d0, rest, rfl⟩
    obtain ⟨rest', rfl⟩ : ∃ rest', rest = row1 :: rest' := by
      cases rest with
      | nil => simp at h1
      | cons r1 rest' =>
        simp only [List.getElem?_cons_succ, List.getElem?_cons_zero, Option.some.injEq] at h1
        exact ⟨rest', by rw [h1]⟩
    simp only [List.drop_succ_cons, List.drop_zero] at hall hr
    rcases List.mem_cons.1 hr with e | e
    · rw [e]; exact h2
    · exact allSameLabels_true _ _ _ hall r e
  · omega
  · exact (selectBest_ne_none o data (headers.length - 1) (by omega) g hsel).elim

/-! ## The entropy of the whole data sheet -/

theorem labelFreq_eq (labelIdx : Int) (rows : List (List String)) (acc : UMap Nat) :
    labelFreq labelIdx rows acc =
      (gatherLabels labelIdx rows).map
        (fun labels => labels.foldl (fun freq lab => freq.update lab 0 (· + 1)) acc) := by
  induction rows generalizing acc with
  | nil => rfl
  | cons r rest ih =>
    cases hx : getAt r labelIdx with
    | none => simp [labelFreq, gatherLabels, hx]
    | some lab =>
      simp only [labelFreq, gatherLabels, hx, ih]
      cases gatherLabels labelIdx rest <;> rfl

theorem gatherLabels_length (labelIdx : Int) (rows : List (List String)) (labels : List String)
    (h : gatherLabels labelIdx rows = some labels) : labels.length = rows.length := by
  induction rows generalizing labels with
  | nil =>
    simp only [gatherLabels, Option.some.injEq] at h
    subst h
    rfl
  | cons r rest ih =>
    cases hx : getAt r labelIdx with
    | none => simp [gatherLabels, hx] at h
    | some lab =>
      cases hrest : gatherLabels labelIdx rest with
      | none => simp [gatherLabels, hx, hrest] at h
      | some labs =>
        simp only [gatherLabels, hx, hrest, Option.map_some', Option.some.injEq] at h
        subst h
        simp [ih labs hrest]

/-- The entropy `DataSheet::calculateEntropy()` caches is the entropy
    `DecisionTree::calculateEntropy` computes for the label column. -/
theorem calculateEntropy_dataSheet (o : HashOrder) (row0 : List String)
    (rows : List (List String)) (labels : List String)
    (h : gatherLabels ((row0.length : Int) - 1) rows = some labels) :
    DataSheet.calculateEntropy o (row0 :: rows) = some (calculateEntropy o labels) := by
  have hlen := gatherLabels_length _ rows labels h
  have hrow : (((((row0 :: rows).length : Nat) : Int) - 1 : Int) : ℝ) = (labels.length : ℝ) := by
    rw [hlen]
    push_cast
    simp
  simp only [DataSheet.calculateEntropy, List.getElem?_cons_zero, List.drop_succ_cons,
    List.drop_zero, labelFreq_eq, h, Option.map_some', hrow]
  simp only [calculateEntropy, countLabels, foldl_sub_eq, foldl_add_eq]
  congr 1
  rw [zero_add, zero_sub]
  generalize o.iter (List.foldl (fun freq lab => freq.update lab 0 (· + 1)) [] labels) = l
  induction l with
  | nil => simp
  | cons kv rest ih =>
    simp only [List.map_cons, List.sum_cons, ih]
    ring

/-! ## Every call of `buildTree` is well-formed -/

theorem BuildCall.wellFormed (o : HashOrder) (data0 : List (List String))
    (headers0 : List String) (hwf : WellFormed data0 headers0) (data : List (List String))
    (headers : List String) (h : BuildCall o data0 headers0 data headers) :
    WellFormed data headers := by
  induction h with
  | root => exact hwf
  | child data headers b a nh parts kv _ hs hkv ih =>
    exact ((split_wellFormed o data headers ih b a nh parts hs).2.2 kv
      ((o.perm parts).mem_iff.1 hkv)).1

theorem WellFormed.rows (data : List (List String)) (headers : List String)
    (hwf : WellFormed data headers) :
    data[0]? = some headers ∧ headers ≠ [] ∧ 2 ≤ data.length ∧
      ∀ r ∈ data, r.length = headers.length := by
  obtain ⟨rows, rfl, hne, hrows, hlen⟩ := hwf
  refine ⟨by simp, hne, ?_, ?_⟩
  · have := List.length_pos.2 hrows
    simp only [List.length_cons]
    omega
  · intro r hr
    rcases List.mem_cons.1 hr with e | e
    · rw [e]
    · exact hlen r e

/-! ## The claims -/

/-- C1 (the code differs): on the weather dataset `buildTree` does not return
    `Decision(Weather)`. The header has two columns, so the test
    `colCount <= 2` sends the call to the majority block, and the result is a
    leaf holding `No` or `Yes`, depending on the iteration order of `freq`. -/
theorem buildTree_weather_is_leaf (o : HashOrder) :
    trainTree o weatherData = some (TreeNode.mk "" "No" []) ∨
    trainTree o weatherData = some (TreeNode.mk "" "Yes" []) := by
  have h : trainTree o weatherData =
      some (TreeNode.mk "" (pickMajority o [("No", 2), ("Yes", 2)]) []) := rfl
  obtain ⟨c, hc, _⟩ := pickMajority_spec o [("No", 2), ("Yes", 2)] (by simp) (by simp)
  rw [h]
  simp only [List.mem_cons, Prod.mk.injEq, List.mem_singleton, List.not_mem_nil, or_false] at hc
  rcases hc with ⟨e, _⟩ | ⟨e, _⟩
  · left; rw [e]
  · right; rw [e]

/-- C2 (counterexample): the round trip fails on two datasets that satisfy
    the hypotheses of the claim (distinct column names, rows as long as the
    header, no two rows that agree on the attributes and differ in label).
    On `emptyLabelData` the tree is a leaf with the empty label, and
    `predict` returns `"Unknown"` for the only row, whose label is `""`. On
    `weatherData` the tree is a majority leaf: with insertion order `predict`
    returns `"No"` for the row `[Rainy, Yes]`, with reversed order it returns
    `"Yes"` for the row `[Sunny, No]`. -/
theorem round_trip_fails :
    ((["A", "L"] : List String).Nodup ∧
      (∀ x ∈ emptyLabelData.drop 1, x.length = (["A", "L"] : List String).length) ∧
      (∀ x ∈ emptyLabelData.drop 1, ∀ y ∈ emptyLabelData.drop 1,
        x.dropLast = y.dropLast → x.getLast? = y.getLast?) ∧
      (["a", ""] : List String) ∈ emptyLabelData.drop 1 ∧
      recordA.find? "A" = some "a" ∧
      trainTree HashOrder.insertion emptyLabelData = some (TreeNode.mk "" "" []) ∧
      predict (some (TreeNode.mk "" "" [])) recordA = "Unknown" ∧
      some (predict (some (TreeNode.mk "" "" [])) recordA) ≠
        (["a", ""] : List String).getLast?) ∧
    ((["Weather", "Play"] : List String).Nodup ∧
      (∀ x ∈ weatherData.drop 1, x.length = (["Weather", "Play"] : List String).length) ∧
      (∀ x ∈ weatherData.drop 1, ∀ y ∈ weatherData.drop 1,
        x.dropLast = y.dropLast → x.getLast? = y.getLast?) ∧
      (["Rainy", "Yes"] : List String) ∈ weatherData.drop 1 ∧
      (["Sunny", "No"] : List String) ∈ weatherData.drop 1 ∧
      UMap.find? [("Weather", "Rainy")] "Weather" = some "Rainy" ∧
      UMap.find? [("Weather", "Sunny")] "Weather" = some "Sunny" ∧
      trainTree HashOrder.insertion weatherData = some (TreeNode.mk "" "No" []) ∧
      some (predict (some (TreeNode.mk "" "No" [])) [("Weather", "Rainy")]) ≠
        (["Rainy", "Yes"] : List String).getLast? ∧
      trainTree HashOrder.reversed weatherData = some (TreeNode.mk "" "Yes" []) ∧
      some (predict (some (TreeNode.mk "" "Yes" [])) [("Weather", "Sunny")]) ≠
        (["Sunny", "No"] : List String).getLast?) :=
  ⟨⟨by decide, by decide, by decide, by decide, rfl, rfl, rfl, by decide⟩,
    ⟨by decide, by decide, by decide, by decide, by decide, rfl, rfl, rfl, by decide, rfl,
      by decide⟩⟩

/-- C2 (amended): for a dataset with a non-empty header of distinct column
    names, every data row as long as the header, no empty label, and any two
    data rows with different labels differing in at least two attribute
    columns, `buildTree` returns a tree, and for every data row `r` and every
    record that maps each attribute name to `r`'s value in that column,
    `predict` on that tree returns `r`'s label. -/
theorem predict_round_trip (o : HashOrder) (hdr : List String) (rows : List (List String))
    (r : List String) (input : UMap String)
    (hhdr : hdr ≠ []) (_hnd : hdr.Nodup)
    (hlen : ∀ x ∈ rows, x.length = hdr.length)
    (hlab : ∀ x ∈ rows, x.getLast? ≠ some "")
    (hsep : ∀ x ∈ rows, ∀ y ∈ rows, x.getLast? ≠ y.getLast? →
      ∃ i j, i < j ∧ j + 1 < hdr.length ∧ x[i]? ≠ y[i]? ∧ x[j]? ≠ y[j]?)
    (hr : r ∈ rows)
    (hin : ∀ i a, i + 1 < hdr.length → hdr[i]? = some a → input.find? a = r[i]?) :
    ∃ root, trainTree o (hdr :: rows) = some root ∧
      some (predict (some root) input) = r.getLast? :=
  round_trip_aux o input (hdr.length + 1) hdr rows r (Nat.le_succ _) hhdr hlen hlab hsep hr hin

/-- C2 (witness): the round trip for the row `[y, q, No]` of `separatedData`
    and the record `{"A": "y", "B": "q"}`. -/
theorem predict_round_trip_witness :
    (["A", "B", "L"] : List String).Nodup ∧
    (["y", "q", "No"] : List String) ∈ separatedData.drop 1 ∧
    (∀ x ∈ separatedData.drop 1, x.getLast? ≠ some "") ∧
    ∃ root, trainTree HashOrder.reversed separatedData = some root ∧
      some (predict (some root) [("A", "y"), ("B", "q")]) = some "No" :=
  ⟨by decide, by decide, by decide,
    predict_round_trip HashOrder.reversed ["A", "B", "L"] (separatedData.drop 1)
      ["y", "q", "No"] [("A", "y"), ("B", "q")]
      (by decide) (by decide) (by decide) (by decide) separatedData_separated (by decide)
      separatedData_record⟩

/-- C3 (counterexample): for the record `{"Weather": "Cloudy"}` the value is
    not a key of the children of `Decision(Weather)`, and `predict` does not
    return the string `"unknown"`. -/
theorem predict_cloudy_ne_unknown :
    Visits cloudyRecord weatherTree weatherTree ∧ weatherTree.label = "" ∧
    cloudyRecord.find? weatherTree.attr = some "Cloudy" ∧
    weatherTree.children.find? "Cloudy" = none ∧
    predict (some weatherTree) cloudyRecord ≠ "unknown" :=
  ⟨Visits.here _, rfl, by decide, rfl, by decide⟩

/-- C3 (amended): if the traversal of `predict` arrives at a node with an
    empty label whose attribute is not a key of the record, or whose children
    have no key equal to the record's value for that attribute, then
    `predict` returns the string `"Unknown"`. -/
theorem predict_missing_path_returns_Unknown (input : UMap String) (root n : TreeNode)
    (hv : Visits input root n) (hl : n.label = "")
    (hmiss : input.find? n.attr = none ∨
      ∃ v, input.find? n.attr = some v ∧ n.children.find? v = none) :
    predict (some root) input = "Unknown" := by
  show predictFrom input root = "Unknown"
  rw [predictFrom_of_visits input root n hv, predictFrom_eq]
  rcases hmiss with h | ⟨v, h1, h2⟩
  · simp [hl, h]
  · simp [hl, h1, h2]

/-- C3 (witness): the amended statement at `Decision(Weather)` and the
    record `{"Weather": "Cloudy"}`. -/
theorem predict_missing_path_returns_Unknown_witness :
    Visits cloudyRecord weatherTree weatherTree ∧ weatherTree.label = "" ∧
    (cloudyRecord.find? weatherTree.attr = none ∨
      ∃ v, cloudyRecord.find? weatherTree.attr = some v ∧
        weatherTree.children.find? v = none) ∧
    predict (some weatherTree) cloudyRecord = "Unknown" :=
  ⟨Visits.here _, rfl, Or.inr ⟨"Cloudy", by decide, rfl⟩,
    predict_missing_path_returns_Unknown cloudyRecord weatherTree weatherTree
      (Visits.here _) rfl (Or.inr ⟨"Cloudy", by decide, rfl⟩)⟩

/-- C4 (counterexample): when the only data row has an empty label field,
    `buildTree` returns a leaf with label `""`; the traversal of `predict`
    starts (and stays) at that leaf and does not return the leaf's label. -/
theorem predict_empty_label_leaf :
    trainTree HashOrder.insertion emptyLabelData = some (TreeNode.mk "" "" []) ∧
    (TreeNode.mk "" "" []).isLeaf = true ∧
    Visits recordA (TreeNode.mk "" "" []) (TreeNode.mk "" "" []) ∧
    predict (some (TreeNode.mk "" "" [])) recordA ≠ (TreeNode.mk "" "" []).label :=
  ⟨rfl, rfl, Visits.here _, by decide⟩

/-- C4 (amended): for every tree and every record, when the traversal of
    `predict` arrives at a leaf, `predict` returns the leaf's label if that
    label is non-empty, and `"Unknown"` if it is the empty string. -/
theorem predict_at_leaf (input : UMap String) (root n : TreeNode)
    (hv : Visits input root n) (hleaf : n.isLeaf = true) :
    predict (some root) input = if n.label ≠ "" then n.label else "Unknown" := by
  show predictFrom input root = _
  rw [predictFrom_of_visits input root n hv, predictFrom_eq]
  have hc : n.children = [] := by
    simpa [TreeNode.isLeaf, List.isEmpty_iff] using hleaf
  split
  · rfl
  · cases input.find? n.attr with
    | none => rfl
    | some v => simp [hc, UMap.find?]

/-- C4 (witness): the amended statement at the leaf `Leaf(No)` below
    `Decision(Weather)`, for the record `{"Weather": "Sunny"}`. -/
theorem predict_at_leaf_witness :
    Visits [("Weather", "Sunny")] weatherTree (TreeNode.mk "" "No" []) ∧
    (TreeNode.mk "" "No" []).isLeaf = true ∧
    predict (some weatherTree) [("Weather", "Sunny")] = "No" :=
  have hv : Visits [("Weather", "Sunny")] weatherTree (TreeNode.mk "" "No" []) :=
    Visits.step weatherTree weatherTree _ "Sunny" (Visits.here _) rfl (by decide) rfl
  ⟨hv, rfl, predict_at_leaf [("Weather", "Sunny")] weatherTree (TreeNode.mk "" "No" []) hv rfl⟩

/-- C5 (the code differs): for header `[A, B, L]` and rows `[a,b,Yes]`,
    `[a,b,Yes]`, `[a,b,No]` both attribute columns have information gain `0`,
    and `buildTree` returns the decision node on `A` with the single child
    `a ↦ Leaf(Yes)`, not a leaf: gain `0` exceeds the initial
    `bestGain = -1.0`, so `bestIdx` is set and the fallback is not taken. -/
theorem buildTree_uninformative_is_decision (o : HashOrder) :
    calculateIG_OnSubset o uninformativeData 0 = some 0 ∧
    calculateIG_OnSubset o uninformativeData 1 = some 0 ∧
    trainTree o uninformativeData =
      some (TreeNode.mk "A" "" [("a", TreeNode.mk "" "Yes" [])]) :=
  ⟨calculateIG_uninformative o 0 (by omega), calculateIG_uninformative o 1 (by omega),
    trainTree_uninformative o⟩

/-- C6: for a dataset with a header, at least one data row and every data row
    as long as the header, if all data rows have the value `v` in the last
    column then `buildTree` returns the leaf `TreeNode("", v)` without
    children, whatever the number of attribute columns and the iteration
    order. -/
theorem buildTree_homogeneous_leaf (o : HashOrder) (hdr : List String)
    (rows : List (List String)) (v : String) (hrows : rows ≠ [])
    (hlen : ∀ r ∈ rows, r.length = hdr.length)
    (hsame : ∀ r ∈ rows, r.getLast? = some v) :
    trainTree o (hdr :: rows) = some (TreeNode.mk "" v []) := by
  have hget : ∀ r ∈ rows, getAt r ((hdr.length : Int) - 1) = some v := by
    intro r hr
    rw [getAt_pred_length r hdr.length (hlen r hr)]
    exact hsame r hr
  cases rows with
  | nil => exact absurd rfl hrows
  | cons r1 rest =>
    have h1 := hget r1 (List.mem_cons_self _ _)
    have h2 := allSameLabels_of_forall ((hdr.length : Int) - 1) v rest
      (fun r hr => hget r (List.mem_cons_of_mem _ hr))
    simp [trainTree, buildTree, buildTreeAux, buildStep, getHeaders, h1, h2]

/-- C6 (witness): a dataset with two attribute columns and three data rows
    that all carry the label `Yes`. -/
theorem buildTree_homogeneous_leaf_witness :
    ([["a", "b", "Yes"], ["a", "c", "Yes"], ["d", "b", "Yes"]] : List (List String)) ≠ [] ∧
    trainTree HashOrder.reversed
      (["A", "B", "L"] :: [["a", "b", "Yes"], ["a", "c", "Yes"], ["d", "b", "Yes"]]) =
      some (TreeNode.mk "" "Yes" []) :=
  ⟨by decide,
    buildTree_homogeneous_leaf HashOrder.reversed ["A", "B", "L"]
      [["a", "b", "Yes"], ["a", "c", "Yes"], ["d", "b", "Yes"]] "Yes"
      (by decide) (by decide) (by decide)⟩

/-- C7: whenever `buildTree` returns a decision node for `data` and
    `headers`, the node's attribute is `headers[i]` for the smallest
    non-label column `i` whose information gain is the maximum over all
    non-label columns: every column has gain at most that of `i`, and every
    column left of `i` has strictly smaller gain. -/
theorem buildTree_tie_break (o : HashOrder) (data : List (List String))
    (headers : List String) (node : TreeNode)
    (h : buildTree o data headers = some node) (hd : node.isDecision = true) :
    ∃ i g, i + 1 < headers.length ∧ headers[i]? = some node.attr ∧
      calculateIG_OnSubset o data i = some g ∧
      (∀ j, j + 1 < headers.length →
        ∃ gj, calculateIG_OnSubset o data j = some gj ∧ gj ≤ g) ∧
      (∀ j, j < i → ∃ gj, calculateIG_OnSubset o data j = some gj ∧ gj < g) := by
  rcases buildTreeAux_inv o _ data headers node h with
    ⟨lab, _, rfl⟩ | ⟨fuel', b, a, nh, parts, children, _, hs, _, rfl⟩
  · simp [TreeNode.isDecision, TreeNode.children] at hd
  · obtain ⟨hlen, ha, _, _, g, hsel⟩ := buildStep_split_inv o data headers b a nh parts hs
    obtain ⟨hb, hg, hall, hlt⟩ := selectBest_first_max o data _ b g hsel
    refine ⟨b, g, by omega, ha, hg, ?_, hlt⟩
    intro j hj
    exact hall j (by omega)

/-- C7 (witness): in `uninformativeData` the columns `A` and `B` tie (both
    gains are `0`), and the decision node carries the left-most one, `A`. -/
theorem buildTree_tie_break_witness :
    buildTree HashOrder.insertion uninformativeData ["A", "B", "L"] =
      some (TreeNode.mk "A" "" [("a", TreeNode.mk "" "Yes" [])]) ∧
    (TreeNode.mk "A" "" [("a", TreeNode.mk "" "Yes" [])]).isDecision = true ∧
    ∃ i g, i + 1 < (["A", "B", "L"] : List String).length ∧
      (["A", "B", "L"] : List String)[i]? =
        some (TreeNode.mk "A" "" [("a", TreeNode.mk "" "Yes" [])]).attr ∧
      calculateIG_OnSubset HashOrder.insertion uninformativeData i = some g ∧
      (∀ j, j + 1 < (["A", "B", "L"] : List String).length →
        ∃ gj, calculateIG_OnSubset HashOrder.insertion uninformativeData j = some gj ∧
          gj ≤ g) ∧
      (∀ j, j < i →
        ∃ gj, calculateIG_OnSubset HashOrder.insertion uninformativeData j = some gj ∧
          gj < g) :=
  ⟨trainTree_uninformative HashOrder.insertion, rfl,
    buildTree_tie_break HashOrder.insertion uninformativeData ["A", "B", "L"] _
      (trainTree_uninformative HashOrder.insertion) rfl⟩

/-- C8: on a dataset with a non-empty header, at least one data row and all
    rows as long as the header, `buildTree` terminates: the fuel
    `headers.size() + 1` it is run with yields a tree, every fuel of at least
    the header length yields the same tree, and the depth of the tree is at
    most the number of attribute columns `k = headers.size() - 1`. Every
    recursive call made by a call on a well-formed dataset receives a header
    list exactly one column shorter and at most as many data rows, and is
    again a call on a well-formed dataset. -/
theorem buildTree_terminates (o : HashOrder) (hdr : List String) (rows : List (List String))
    (hhdr : hdr ≠ []) (hrows : rows ≠ []) (hlen : ∀ r ∈ rows, r.length = hdr.length) :
    (∃ t, trainTree o (hdr :: rows) = some t ∧
      (∀ fuel, hdr.length ≤ fuel → buildTreeAux o fuel (hdr :: rows) hdr = some t) ∧
      t.depth + 1 ≤ hdr.length) ∧
    (∀ data headers, WellFormed data headers →
      ∀ b a nh parts, buildStep o data headers = some (BuildStep.split b a nh parts) →
        nh.length + 1 = headers.length ∧
        ∀ kv ∈ o.iter parts, WellFormed (nh :: kv.2) nh ∧
          kv.2.length ≤ (data.drop 1).length) := by
  have hwf : WellFormed (hdr :: rows) hdr := ⟨rows, rfl, hhdr, hrows, hlen⟩
  constructor
  · obtain ⟨t, ht⟩ := buildTreeAux_isSome o hdr.length (hdr :: rows) hdr hwf (le_refl _)
    refine ⟨t, ?_, ?_, ?_⟩
    · exact buildTreeAux_mono o _ _ _ t ht _ (Nat.le_succ _)
    · intro fuel hf
      exact buildTreeAux_mono o _ _ _ t ht fuel hf
    · exact buildTreeAux_depth o _ _ hdr hwf t ht
  · intro data headers hwf' b a nh parts hs
    obtain ⟨_, hnl, hch⟩ := split_wellFormed o data headers hwf' b a nh parts hs
    exact ⟨hnl, fun kv hkv => hch kv ((o.perm parts).mem_iff.1 hkv)⟩

/-- C8 (witness): the statement at `splitData` (two attribute columns, three
    data rows). -/
theorem buildTree_terminates_witness :
    (["A", "B", "L"] : List String) ≠ [] ∧
    (∃ t, trainTree HashOrder.insertion splitData = some t ∧
      (∀ fuel, 3 ≤ fuel → buildTreeAux HashOrder.insertion fuel splitData ["A", "B", "L"] =
        some t) ∧
      t.depth + 1 ≤ 3) :=
  ⟨by decide,
    (buildTree_terminates HashOrder.insertion ["A", "B", "L"]
      [["x", "p", "Yes"], ["y", "p", "No"], ["x", "q", "Yes"]]
      (by decide) (by decide) (by decide)).1⟩

/-- C9: in the split step of `buildTree` on column `bestIdx`, the partitions
    have pairwise distinct keys; the partition keyed by `k` is exactly the
    list of the data rows whose value in column `bestIdx` is `k`, each with
    that column erased, in input order (and there is no partition for a `k`
    that no row carries); every data row is found, erased, in the partition
    keyed by its value; and the partition sizes sum to the number of data
    rows, in whatever order the partitions are visited. -/
theorem partition_complete (o : HashOrder) (data : List (List String))
    (headers : List String) (bestIdx : Nat) (bestAttr : String) (newHeaders : List String)
    (partitions : UMap (List (List String)))
    (h : buildStep o data headers =
      some (BuildStep.split bestIdx bestAttr newHeaders partitions)) :
    partitions.keys.Nodup ∧
    (∀ k, partitions.find? k =
      if rowsWith bestIdx k (data.drop 1) = [] then none
      else some (rowsWith bestIdx k (data.drop 1))) ∧
    (∀ r ∈ data.drop 1, ∃ k rs, r[bestIdx]? = some k ∧ partitions.find? k = some rs ∧
      r.eraseIdx bestIdx ∈ rs) ∧
    (∀ kv ∈ o.iter partitions, kv.2 = rowsWith bestIdx kv.1 (data.drop 1)) ∧
    ((o.iter partitions).map (fun kv => kv.2.length)).sum = (data.drop 1).length := by
  obtain ⟨_, _, _, hp, _⟩ := buildStep_split_inv o data headers bestIdx bestAttr newHeaders
    partitions h
  refine ⟨partitionRows_nodup _ _ [] _ hp List.nodup_nil,
    partitionRows_find_eq _ _ _ hp, ?_, ?_, ?_⟩
  · intro r hr
    obtain ⟨k, hk⟩ := partitionRows_rows_have_column _ _ [] _ hp r hr
    have hmem := mem_rowsWith_of_mem bestIdx k (data.drop 1) r hr hk
    refine ⟨k, rowsWith bestIdx k (data.drop 1), hk, ?_, hmem⟩
    rw [partitionRows_find_eq _ _ _ hp, if_neg (List.ne_nil_of_mem hmem)]
  · intro kv hkv
    exact (partitionRows_entry _ _ _ hp kv ((o.perm partitions).mem_iff.1 hkv)).1
  · rw [((o.perm partitions).map _).sum_eq, partitionRows_sizes _ _ [] _ hp]
    simp

/-- C9 (witness): the split of `splitData` on column `A` into the partitions
    `x` (two rows) and `y` (one row). -/
theorem partition_complete_witness :
    buildStep HashOrder.reversed splitData ["A", "B", "L"] =
      some (BuildStep.split 0 "A" ["B", "L"]
        [("x", [["p", "Yes"], ["q", "Yes"]]), ("y", [["p", "No"]])]) ∧
    ((HashOrder.reversed.iter
      [("x", [["p", "Yes"], ["q", "Yes"]]), ("y", [["p", "No"]])]).map
        (fun kv => kv.2.length)).sum = (splitData.drop 1).length :=
  ⟨buildStep_splitData HashOrder.reversed,
    (partition_complete HashOrder.reversed splitData ["A", "B", "L"] 0 "A" ["B", "L"]
      [("x", [["p", "Yes"], ["q", "Yes"]]), ("y", [["p", "No"]])]
      (buildStep_splitData HashOrder.reversed)).2.2.2.2⟩

/-- C10: for every non-empty list of labels the value of `calculateEntropy`
    (over exact reals) lies between `0` and `log2 d`, where `d` is the number
    of distinct labels of the list; this holds for every iteration order. -/
theorem calculateEntropy_bounds (o : HashOrder) (labels : List String) (hne : labels ≠ []) :
    0 ≤ calculateEntropy o labels ∧
    calculateEntropy o labels ≤ Real.logb 2 (labels.dedup.length : ℝ) :=
  ⟨calculateEntropy_nonneg o labels, calculateEntropy_le o labels hne⟩

/-- C10 (witness): the bounds for the labels `No, No, Yes, Yes`. -/
theorem calculateEntropy_bounds_witness :
    (["No", "No", "Yes", "Yes"] : List String) ≠ [] ∧
    0 ≤ calculateEntropy HashOrder.insertion ["No", "No", "Yes", "Yes"] ∧
    calculateEntropy HashOrder.insertion ["No", "No", "Yes", "Yes"] ≤
      Real.logb 2 ((["No", "No", "Yes", "Yes"] : List String).dedup.length : ℝ) :=
  ⟨by decide, calculateEntropy_bounds HashOrder.insertion ["No", "No", "Yes", "Yes"] (by decide)⟩

/-- C11: for a dataset with at least one data row and every data row as long
    as the header, and for every non-label column `i`, `calculateIG_OnSubset`
    returns a gain (base entropy minus the size-weighted sum of the
    entropies of the parts, over exact reals) that is at least `0`, for
    every iteration order. -/
theorem calculateIG_OnSubset_gain_nonneg (o : HashOrder) (hdr : List String)
    (rows : List (List String)) (i : Nat) (hrows : rows ≠ [])
    (hlen : ∀ r ∈ rows, r.length = hdr.length) (hi : i + 1 < hdr.length) :
    ∃ g, calculateIG_OnSubset o (hdr :: rows) i = some g ∧ 0 ≤ g := by
  have hhdr : hdr ≠ [] := by
    intro e
    rw [e] at hi
    simp at hi
  have hwf : WellFormed (hdr :: rows) hdr := ⟨rows, rfl, hhdr, hrows, hlen⟩
  obtain ⟨g, hg⟩ := calculateIG_isSome o (hdr :: rows) hdr hwf i (by omega)
  exact ⟨g, hg, calculateIG_OnSubset_nonneg o (hdr :: rows) i g hg⟩

/-- C11 (witness): the gain of column `B` of `splitData` is non-negative. -/
theorem calculateIG_OnSubset_gain_nonneg_witness :
    (splitData.drop 1) ≠ [] ∧ 1 + 1 < (["A", "B", "L"] : List String).length ∧
    ∃ g, calculateIG_OnSubset HashOrder.reversed splitData 1 = some g ∧ 0 ≤ g :=
  ⟨by decide, by decide,
    calculateIG_OnSubset_gain_nonneg HashOrder.reversed ["A", "B", "L"] (splitData.drop 1) 1
      (by decide) (by decide) (by decide)⟩

/-- C12: if the root dataset has a non-empty header as its first row, at
    least one data row and every row as long as the header, then every call
    of `buildTree` below the root call receives a dataset whose first row is
    its header list, which is non-empty, with at least one data row and every
    row as long as that header list. In every such call no index is out of
    range: the body of `buildTree` reaches a `return` or the loop over the
    partitions, `calculateIG_OnSubset` returns a gain for every non-label
    column, and the call returns a tree. -/
theorem buildTree_index_safe (o : HashOrder) (hdr : List String) (rows : List (List String))
    (hhdr : hdr ≠ []) (hrows : rows ≠ []) (hlen : ∀ r ∈ rows, r.length = hdr.length)
    (data : List (List String)) (headers : List String)
    (hcall : BuildCall o (hdr :: rows) hdr data headers) :
    (data[0]? = some headers ∧ headers ≠ [] ∧ 2 ≤ data.length ∧
      ∀ r ∈ data, r.length = headers.length) ∧
    (∃ s, buildStep o data headers = some s) ∧
    (∀ i, i + 1 < headers.length → ∃ g, calculateIG_OnSubset o data i = some g) ∧
    (∃ t, buildTree o data headers = some t) := by
  have hwf0 : WellFormed (hdr :: rows) hdr := ⟨rows, rfl, hhdr, hrows, hlen⟩
  have hwf := BuildCall.wellFormed o (hdr :: rows) hdr hwf0 data headers hcall
  exact ⟨WellFormed.rows data headers hwf, buildStep_isSome o data headers hwf,
    fun i hi => calculateIG_isSome o data headers hwf i (by omega),
    buildTreeAux_isSome o _ data headers hwf (Nat.le_succ _)⟩

/-- C12 (witness): the call for the partition `y` of `splitData`, made by the
    root call after its split on column `A`. -/
theorem buildTree_index_safe_witness :
    BuildCall HashOrder.insertion splitData ["A", "B", "L"]
      (["B", "L"] :: [["p", "No"]]) ["B", "L"] ∧
    (∃ s, buildStep HashOrder.insertion (["B", "L"] :: [["p", "No"]]) ["B", "L"] = some s) ∧
    (∃ t, buildTree HashOrder.insertion (["B", "L"] :: [["p", "No"]]) ["B", "L"] = some t) :=
  have hcall : BuildCall HashOrder.insertion splitData ["A", "B", "L"]
      (["B", "L"] :: [["p", "No"]]) ["B", "L"] :=
    BuildCall.child splitData ["A", "B", "L"] 0 "A" ["B", "L"]
      [("x", [["p", "Yes"], ["q", "Yes"]]), ("y", [["p", "No"]])] ("y", [["p", "No"]])
      BuildCall.root (buildStep_splitData HashOrder.insertion)
      (List.mem_cons_of_mem _ (List.mem_cons_self _ _))
  have h := buildTree_index_safe HashOrder.insertion ["A", "B", "L"] (splitData.drop 1)
    (by decide) (by decide) (by decide) (["B", "L"] :: [["p", "No"]]) ["B", "L"] hcall
  ⟨hcall, h.2.1, h.2.2.2⟩

end DecisionTreeImpl
